import Mathlib

/-!
Verification of the jetstream-turbo hydration core against its Python source
(`hydration.py`, `bluesky_api.py`, `turbocharger.py`).

The embedding is shallow: Python values flowing through the pipeline are
modelled by the tagged tree `J` (JSON-like values plus Python `None`),
Python dicts by insertion-ordered association lists, Python sets by
insertion-ordered duplicate-free lists (Python set iteration order is
hash-dependent and unspecified; every theorem proved below is insensitive
to that order), and raising code by `Except PyErr`.  Remote network calls
are oracles passed in as functions.
-/

set_option maxHeartbeats 1000000

namespace JetstreamTurbo

/-- Python exception kinds that the modelled code can raise. -/
inductive PyErr where
  | attributeError
  | typeError
  | zeroDivisionError
  | keyError
  | runtimeError
deriving DecidableEq, Repr

/-- A Python value as it appears in the pipeline: `null` models Python
`None` (and JSON `null`), the rest model JSON scalars, lists and dicts.
Dict keys are arbitrary values, as in Python. -/
inductive J where
  | null
  | bool (b : Bool)
  | str (s : String)
  | int (n : Int)
  | arr (xs : List J)
  | obj (fields : List (J × J))
deriving Repr

mutual

/-- Decidable equality on `J` (the nested inductive prevents deriving it). -/
def jDecEq : (a b : J) → Decidable (a = b)
  | .null, .null => isTrue rfl
  | .null, .bool _ => isFalse (fun h => nomatch h)
  | .null, .str _ => isFalse (fun h => nomatch h)
  | .null, .int _ => isFalse (fun h => nomatch h)
  | .null, .arr _ => isFalse (fun h => nomatch h)
  | .null, .obj _ => isFalse (fun h => nomatch h)
  | .bool _, .null => isFalse (fun h => nomatch h)
  | .bool x, .bool y =>
    match decEq x y with
    | isTrue h => isTrue (h ▸ rfl)
    | isFalse h => isFalse (fun hh => h (J.bool.inj hh))
  | .bool _, .str _ => isFalse (fun h => nomatch h)
  | .bool _, .int _ => isFalse (fun h => nomatch h)
  | .bool _, .arr _ => isFalse (fun h => nomatch h)
  | .bool _, .obj _ => isFalse (fun h => nomatch h)
  | .str _, .null => isFalse (fun h => nomatch h)
  | .str _, .bool _ => isFalse (fun h => nomatch h)
  | .str x, .str y =>
    match decEq x y with
    | isTrue h => isTrue (h ▸ rfl)
    | isFalse h => isFalse (fun hh => h (J.str.inj hh))
  | .str _, .int _ => isFalse (fun h => nomatch h)
  | .str _, .arr _ => isFalse (fun h => nomatch h)
  | .str _, .obj _ => isFalse (fun h => nomatch h)
  | .int _, .null => isFalse (fun h => nomatch h)
  | .int _, .bool _ => isFalse (fun h => nomatch h)
  | .int _, .str _ => isFalse (fun h => nomatch h)
  | .int x, .int y =>
    match decEq x y with
    | isTrue h => isTrue (h ▸ rfl)
    | isFalse h => isFalse (fun hh => h (J.int.inj hh))
  | .int _, .arr _ => isFalse (fun h => nomatch h)
  | .int _, .obj _ => isFalse (fun h => nomatch h)
  | .arr _, .null => isFalse (fun h => nomatch h)
  | .arr _, .bool _ => isFalse (fun h => nomatch h)
  | .arr _, .str _ => isFalse (fun h => nomatch h)
  | .arr _, .int _ => isFalse (fun h => nomatch h)
  | .arr x, .arr y =>
    match jDecEqList x y with
    | isTrue h => isTrue (h ▸ rfl)
    | isFalse h => isFalse (fun hh => h (J.arr.inj hh))
  | .arr _, .obj _ => isFalse (fun h => nomatch h)
  | .obj _, .null => isFalse (fun h => nomatch h)
  | .obj _, .bool _ => isFalse (fun h => nomatch h)
  | .obj _, .str _ => isFalse (fun h => nomatch h)
  | .obj _, .int _ => isFalse (fun h => nomatch h)
  | .obj _, .arr _ => isFalse (fun h => nomatch h)
  | .obj x, .obj y =>
    match jDecEqFields x y with
    | isTrue h => isTrue (h ▸ rfl)
    | isFalse h => isFalse (fun hh => h (J.obj.inj hh))

/-- Decidable equality on lists of `J`. -/
def jDecEqList : (a b : List J) → Decidable (a = b)
  | [], [] => isTrue rfl
  | [], _ :: _ => isFalse (fun h => nomatch h)
  | _ :: _, [] => isFalse (fun h => nomatch h)
  | x :: xs, y :: ys =>
    match jDecEq x y, jDecEqList xs ys with
    | isTrue h1, isTrue h2 => isTrue (h1 ▸ h2 ▸ rfl)
    | isFalse h1, _ => isFalse (fun hh => h1 (List.head_eq_of_cons_eq hh))
    | _, isFalse h2 => isFalse (fun hh => h2 (List.tail_eq_of_cons_eq hh))

/-- Decidable equality on lists of `J`-pairs (dict entries). -/
def jDecEqFields : (a b : List (J × J)) → Decidable (a = b)
  | [], [] => isTrue rfl
  | [], _ :: _ => isFalse (fun h => nomatch h)
  | _ :: _, [] => isFalse (fun h => nomatch h)
  | (k, v) :: xs, (k', v') :: ys =>
    match jDecEq k k', jDecEq v v', jDecEqFields xs ys with
    | isTrue h1, isTrue h2, isTrue h3 => isTrue (h1 ▸ h2 ▸ h3 ▸ rfl)
    | isFalse h1, _, _ =>
      isFalse (fun hh => h1 (congrArg Prod.fst (List.head_eq_of_cons_eq hh)))
    | _, isFalse h2, _ =>
      isFalse (fun hh => h2 (congrArg Prod.snd (List.head_eq_of_cons_eq hh)))
    | _, _, isFalse h3 => isFalse (fun hh => h3 (List.tail_eq_of_cons_eq hh))

end

instance : DecidableEq J := jDecEq

/-- Python truthiness (`if x:`): `None`, `False`, `""`, `0`, `[]`, `{}`
are falsy, everything else truthy. -/
def J.truthy : J → Bool
  | .null => false
  | .bool b => b
  | .str s => s ≠ ""
  | .int n => n ≠ 0
  | .arr xs => ¬xs.isEmpty
  | .obj fs => ¬fs.isEmpty

/-- Whether a Python value is hashable (usable as a set element or dict
key): lists and dicts are unhashable. -/
def J.hashable : J → Bool
  | .arr _ => false
  | .obj _ => false
  | _ => true

/-- Lookup in an insertion-ordered dict (association list).  Dict keys are
unique, so first-match lookup is the Python dict lookup. -/
def dictFind {K V : Type} [DecidableEq K] : List (K × V) → K → Option V
  | [], _ => none
  | (k, v) :: rest, key => if k = key then some v else dictFind rest key

/-- Remove a key from a dict (Python `dict.pop(key)` on a present key);
removes the first occurrence, which is the only one for unique keys. -/
def eraseKey {K V : Type} [DecidableEq K] : List (K × V) → K → List (K × V)
  | [], _ => []
  | (k, v) :: rest, key => if k = key then rest else (k, v) :: eraseKey rest key

/-- Python `d[k] = v` on a dict: an existing key keeps its position and
gets the new value; a new key is appended at the end. -/
def dictInsert {K V : Type} [DecidableEq K] (d : List (K × V)) (k : K) (v : V) :
    List (K × V) :=
  match dictFind d k with
  | some _ => d.map (fun kv => if kv.1 = k then (k, v) else kv)
  | none => d ++ [(k, v)]

/-- Python `d.update(e)`: insert every entry of `e` into `d` in order. -/
def dictUpdate {K V : Type} [DecidableEq K] (d e : List (K × V)) : List (K × V) :=
  e.foldl (fun acc kv => dictInsert acc kv.1 kv.2) d

/-- Python `obj.get(key, default)`: on a dict returns the stored value or
the default; on any non-dict value the attribute access `.get` raises
`AttributeError` (this is how `None` or wrong-typed intermediate nodes
make the source raise). -/
def pyGet (o : J) (key default : J) : Except PyErr J :=
  match o with
  | .obj fs => .ok ((dictFind fs key).getD default)
  | _ => .error .attributeError

/-- Python iteration `for x in o`: lists yield elements, strings yield
one-character strings, dicts yield their keys; `None`, bools and ints
raise `TypeError`. -/
def pyIter (o : J) : Except PyErr (List J) :=
  match o with
  | .arr xs => .ok xs
  | .str s => .ok (s.toList.map (fun c => J.str (String.mk [c])))
  | .obj fs => .ok (fs.map Prod.fst)
  | _ => .error .typeError

/-- Python `s.add(x)` on a set, modelled as an insertion-ordered
duplicate-free list: unhashable elements raise `TypeError`. -/
def setAdd (s : List J) (x : J) : Except PyErr (List J) :=
  if x.hashable then .ok (if s.contains x then s else s ++ [x]) else .error .typeError

/-- The guarded insertion pattern `if v: s.add(v)` of the source: add
only truthy values. -/
def guardedAdd (s : List J) (v : J) : Except PyErr (List J) :=
  if v.truthy then setAdd s v else pure s

/-- Python `s.update(t)` on sets: add every element of `t` to `s`. -/
def setUnion (s t : List J) : Except PyErr (List J) :=
  t.foldlM setAdd s

/-! ## The LRU cache (`hydration.py`, class `LRUCache`)

The `OrderedDict` is modelled as an association list whose front is the
least-recently-used entry and whose back is the most-recently-used one
(`self.cache[key] = value` appends at the back, `popitem(last=False)`
removes the front). -/

/-- `LRUCache.__init__`: `max_size` plus the ordered map, LRU at the
front, MRU at the back. -/
structure LRUCache where
  max_size : Nat
  cache : List (J × J)

/-- A fresh cache, as built by `LRUCache(max_size=n)`. -/
def LRUCache.empty (n : Nat) : LRUCache := ⟨n, []⟩

/-- `LRUCache.get`: return `None` (`J.null`) if the key is not present;
otherwise pop and re-insert the entry at the MRU end and return the
stored value.  The first component is exactly Python's return value
(`None` doubles as the absent signal); presence is `dictFind ≠ none`. -/
def LRUCache.get (c : LRUCache) (key : J) : J × LRUCache :=
  match dictFind c.cache key with
  | none => (.null, c)
  | some value => (value, { c with cache := eraseKey c.cache key ++ [(key, value)] })

/-- `LRUCache.set`: an existing key is popped and re-inserted at MRU with
the new value; a new key on a full cache first evicts the front
(`popitem(last=False)`; on an empty cache with `max_size = 0` Python
would raise `KeyError`, modelled by `List.tail [] = []` and unreachable
for `max_size ≥ 1`); otherwise the new key is appended at MRU. -/
def LRUCache.set (c : LRUCache) (key value : J) : LRUCache :=
  if (dictFind c.cache key).isSome then
    { c with cache := eraseKey c.cache key ++ [(key, value)] }
  else if c.max_size ≤ c.cache.length then
    { c with cache := c.cache.tail ++ [(key, value)] }
  else
    { c with cache := c.cache ++ [(key, value)] }

/-- The keys of the cache, LRU first. -/
def LRUCache.keysOf (c : LRUCache) : List J := c.cache.map Prod.fst

/-- The most-recently-used key, if any. -/
def LRUCache.mru (c : LRUCache) : Option J := c.keysOf.getLast?

/-- The least-recently-used key, if any. -/
def LRUCache.lru (c : LRUCache) : Option J := c.keysOf.head?

mutual

/-- Python `str(x)`, as used by the f-string building `at_uri`. -/
def pyStr : J → String
  | .null => "None"
  | .bool b => bif b then "True" else "False"
  | .str s => s
  | .int n => toString n
  | .arr xs => "[" ++ pyReprSeq xs ++ "]"
  | .obj fs => "\x7b" ++ pyReprFields fs ++ "\x7d"

/-- Python `repr(x)` for container elements (escaping inside string
literals is elided; no theorem below depends on this rendering). -/
def pyRepr : J → String
  | .null => "None"
  | .bool b => bif b then "True" else "False"
  | .str s => String.mk [Char.ofNat 39] ++ s ++ String.mk [Char.ofNat 39]
  | .int n => toString n
  | .arr xs => "[" ++ pyReprSeq xs ++ "]"
  | .obj fs => "\x7b" ++ pyReprFields fs ++ "\x7d"

/-- Comma-separated reprs of list elements. -/
def pyReprSeq : List J → String
  | [] => ""
  | [x] => pyRepr x
  | x :: y :: rest => pyRepr x ++ ", " ++ pyReprSeq (y :: rest)

/-- Comma-separated `key: value` reprs of dict entries. -/
def pyReprFields : List (J × J) → String
  | [] => ""
  | [(k, v)] => pyRepr k ++ ": " ++ pyRepr v
  | (k, v) :: e :: rest => pyRepr k ++ ": " ++ pyRepr v ++ ", " ++ pyReprFields (e :: rest)

end

/-! ## Phase 1: reference collection (`Hydration.hydrate_bulk`, first loop) -/

/-- The accumulator built by the first loop of `hydrate_bulk`:
`record_mentions_map` and `record_embed_map` are indexed by record
position (the latter holds `none` where the Python dict has no entry for
that index); the remaining three are the accumulated sets, modelled as
insertion-ordered duplicate-free lists. -/
structure RefAcc where
  record_mentions_map : List (List J)
  record_embed_map : List (Option J)
  all_dids : List J
  all_uris : List J
  mention_dids_global : List J

/-- The inner feature scan: for a feature whose `$type` is the mention
facet type and whose `did` is truthy, add the DID to `rec_dids` (first
component) and `mention_dids_global` (second component). -/
def scanFeature (acc : List J × List J) (feature : J) : Except PyErr (List J × List J) := do
  let ftype ← pyGet feature (.str "$type") .null
  if ftype = .str "app.bsky.richtext.facet#mention" then
    let mention_did ← pyGet feature (.str "did") .null
    if mention_did.truthy then do
      let rd ← setAdd acc.1 mention_did
      let mg ← setAdd acc.2 mention_did
      pure (rd, mg)
    else pure acc
  else pure acc

/-- The facet scan: iterate the facet's `features` (default `[]`) and
scan each one. -/
def scanFacet (acc : List J × List J) (facet : J) : Except PyErr (List J × List J) := do
  let features ← pyGet facet (.str "features") (.arr [])
  let featList ← pyIter features
  featList.foldlM scanFeature acc

/-- The quote-embed block of one phase-1 iteration (the source's
"QUOTE PATCH"): detect an `app.bsky.embed.record` embed, add its truthy
`record.uri` to `all_uris`, and return the `record_embed_map` entry. -/
def quoteScan (all_uris : List J) (c_record : J) : Except PyErr (List J × Option J) := do
  let embed ← pyGet c_record (.str "embed") (.obj [])
  let etype ← pyGet embed (.str "$type") .null
  if etype = .str "app.bsky.embed.record" then do
    let erec ← pyGet embed (.str "record") (.obj [])
    let quote_uri ← pyGet erec (.str "uri") .null
    if quote_uri.truthy then do
      let u ← setAdd all_uris quote_uri
      pure (u, some quote_uri)
    else pure (all_uris, none)
  else pure (all_uris, (none : Option J))

/-- The reply block of one phase-1 iteration: add the truthy
`reply.parent.uri` and `reply.root.uri` to `all_uris`. -/
def replyScan (all_uris : List J) (c_record : J) : Except PyErr (List J) := do
  let reply ← pyGet c_record (.str "reply") (.obj [])
  let parentNode ← pyGet reply (.str "parent") (.obj [])
  let parent_uri ← pyGet parentNode (.str "uri") .null
  let us ← guardedAdd all_uris parent_uri
  let rootNode ← pyGet reply (.str "root") (.obj [])
  let root_uri ← pyGet rootNode (.str "uri") .null
  guardedAdd us root_uri

/-- One iteration of the phase-1 loop over `records`: collect the posting
DID, the quote-embed URI, the mention DIDs and the reply parent/root
URIs of one record, in the source's order of operations (quote embed,
then facets, then reply). -/
def collectRefsStep (acc : RefAcc) (rec : J) : Except PyErr RefAcc := do
  let did ← pyGet rec (.str "did") .null
  let all_dids ← guardedAdd acc.all_dids did
  let commit ← pyGet rec (.str "commit") (.obj [])
  let c_record ← pyGet commit (.str "record") (.obj [])
  let quoted ← quoteScan acc.all_uris c_record
  let facets ← pyGet c_record (.str "facets") (.arr [])
  let facetList ← pyIter facets
  let mres ← facetList.foldlM scanFacet ([], acc.mention_dids_global)
  let all_uris ← replyScan quoted.1 c_record
  pure { record_mentions_map := acc.record_mentions_map ++ [mres.1],
         record_embed_map := acc.record_embed_map ++ [quoted.2],
         all_dids := all_dids,
         all_uris := all_uris,
         mention_dids_global := mres.2 }

/-- Phase 1: the whole first loop of `hydrate_bulk` (the union
`all_dids.update(mention_dids_global)` follows the loop and is performed
in `hydrate_bulk` below). -/
def collectRefs (records : List J) : Except PyErr RefAcc :=
  records.foldlM collectRefsStep ⟨[], [], [], [], []⟩

/-! ## Phase 2: cache probe -/

/-- The probe list comprehension
`[k for k in keys if cache.get(k) is None]`: each `get` promotes a hit
to MRU; the keys whose `get` returned `None` are collected in order. -/
def probeMissing (c : LRUCache) : List J → List J × LRUCache
  | [] => ([], c)
  | k :: rest =>
    let (v, c') := c.get k
    let (ms, c'') := probeMissing c' rest
    if v = .null then (k :: ms, c'') else (ms, c'')

/-! ## Remote API (`bluesky_api.py`, class `BlueskyAPI`)

The network responses are oracles: `profilesChunk` stands for
`client.app.bsky.actor.get_profiles({"actors": sub}).profiles` and
`postsChunk` for `client.app.bsky.feed.get_posts({"uris": sub}).posts`
on the one client chosen for the batch. -/

/-- An `AppBskyActorDefs.ProfileViewDetailed`: the `.did` attribute and
the `.model_dump()` result (so `hasattr(profile, "did")` always holds,
as it does for the typed atproto response). -/
structure Profile where
  did : J
  dump : J

/-- An `AppBskyFeedDefs.PostView`: the `.uri` attribute and the
`.model_dump()` result (so `hasattr(post_data, "model_dump")` always
holds). -/
structure PostView where
  uri : J
  dump : J

/-- The per-chunk remote endpoints of the one `BlueskyAPI` client chosen
for the batch (`random.choice(api_clients)` is modelled by passing the
chosen client's oracle directly). -/
structure ApiOracle where
  profilesChunk : List J → Except PyErr (List Profile)
  postsChunk : List J → Except PyErr (List PostView)

/-- `[items[i : i + chunk_size] for i in range(0, len(items), chunk_size)]`
(a zero step would make `range` raise `ValueError`; the source always
passes 25). -/
def chunksGo {α : Type} (n : Nat) : Nat → List α → List (List α)
  | _, [] => []
  | 0, _ :: _ => []
  | fuel + 1, x :: xs =>
    match n with
    | 0 => []
    | m + 1 => ((x :: xs).take (m + 1)) :: chunksGo n fuel ((x :: xs).drop (m + 1))

def chunks {α : Type} (n : Nat) (l : List α) : List (List α) :=
  chunksGo n l.length l

/-- `BlueskyAPI._chunked_map`: empty input short-circuits to an empty
dict with no fetch; otherwise every chunk is fetched (the number of
remote calls is the number of chunks) and the resulting dicts are merged
in order. -/
def chunked_map {T K V : Type} [DecidableEq K] (items : List T) (chunk_size : Nat)
    (fetcher : List T → Except PyErr (List (K × V))) : Except PyErr (List (K × V)) :=
  if items.isEmpty then .ok []
  else do
    let results ← (chunks chunk_size items).mapM fetcher
    pure (results.foldl dictUpdate [])

/-- `BlueskyAPI.get_user_data_for_dids`: fetch profiles in pages of 25;
each page becomes the dict `(p.did, p) for p in resp.profiles`. -/
def get_user_data_for_dids (api : ApiOracle) (dids : List J) :
    Except PyErr (List (J × Profile)) :=
  chunked_map dids 25 (fun sub => do
    let resp ← api.profilesChunk sub
    pure (resp.foldl (fun d p => dictInsert d p.did p) []))

/-- `BlueskyAPI.hydrate_records_for_uris`: fetch posts in pages of 25;
each page becomes the dict `(p.uri, p) for p in resp.posts`. -/
def hydrate_records_for_uris (api : ApiOracle) (uris : List J) :
    Except PyErr (List (J × PostView)) :=
  chunked_map uris 25 (fun sub => do
    let resp ← api.postsChunk sub
    pure (resp.foldl (fun d p => dictInsert d p.uri p) []))

/-! ## Phases 3-5 and `hydrate_bulk` -/

/-- The two process-wide caches (`Hydration._user_cache` and
`Hydration._post_cache`), passed as explicit state. -/
structure Caches where
  user : LRUCache
  post : LRUCache

/-- Phase 4, writer half: publish every fetched profile under its
`.did` key and every fetched post under its response-dict key, in
response order. -/
def publishFetched (st : Caches) (fetched_users : List (J × Profile))
    (fetched_posts : List (J × PostView)) : Caches :=
  ⟨fetched_users.foldl (fun c kv => c.set kv.2.did kv.2.dump) st.user,
   fetched_posts.foldl (fun c kv => c.set kv.1 kv.2.dump) st.post⟩

/-- Phase 4, reader half for one cache: for every referenced key, `get`
it (promoting a hit to MRU), re-`set` a non-`None` value, and record the
key → value-or-`None` entry.  The keys come from a deduplicated set, so
consing preserves the Python dict's insertion order. -/
def readback (c : LRUCache) : List J → List (J × J) × LRUCache
  | [] => ([], c)
  | k :: rest =>
    let (val, c') := c.get k
    let c'' := if val ≠ .null then c'.set k val else c'
    let (entries, cf) := readback c'' rest
    ((k, val) :: entries, cf)

/-- Phase 5 for one record: build the enriched object from the original
record, its mention set and its quote entry, resolving against the
`did_to_profile` / `uri_to_post` dicts. -/
def assembleOne (did_to_profile uri_to_post : List (J × J)) (rec : J)
    (rec_mentions : List J) (embed_entry : Option J) : Except PyErr J := do
  let commit ← pyGet rec (.str "commit") (.obj [])
  let c_record ← pyGet commit (.str "record") (.obj [])
  let did ← pyGet rec (.str "did") (.str "")
  let collection ← pyGet commit (.str "collection") (.str "")
  let rkey ← pyGet commit (.str "rkey") (.str "")
  let at_uri :=
    if did.truthy && collection.truthy && rkey.truthy then
      "at://" ++ pyStr did ++ "/" ++ pyStr collection ++ "/" ++ pyStr rkey
    else ""
  let time_us ← pyGet c_record (.str "time_us") .null
  let user_profile := (dictFind did_to_profile did).getD .null
  let mention_dict := rec_mentions.foldl
    (fun d m => dictInsert d m ((dictFind did_to_profile m).getD .null)) []
  let reply ← pyGet c_record (.str "reply") (.obj [])
  let parentNode ← pyGet reply (.str "parent") (.obj [])
  let parent_uri ← pyGet parentNode (.str "uri") .null
  let parent_post := if parent_uri.truthy then (dictFind uri_to_post parent_uri).getD .null else .null
  let rootNode ← pyGet reply (.str "root") (.obj [])
  let root_uri ← pyGet rootNode (.str "uri") .null
  let root_post := if root_uri.truthy then (dictFind uri_to_post root_uri).getD .null else .null
  let quote_uri := embed_entry.getD .null
  let quote_post := if quote_uri.truthy then (dictFind uri_to_post quote_uri).getD .null else .null
  let hydrated_metadata := J.obj
    [(.str "user", user_profile),
     (.str "mentions", .obj mention_dict),
     (.str "parent_post", parent_post),
     (.str "reply_post", root_post),
     (.str "quote_post", quote_post)]
  pure (J.obj
    [(.str "at_uri", .str at_uri),
     (.str "did", did),
     (.str "time_us", time_us),
     (.str "message", rec),
     (.str "hydrated_metadata", hydrated_metadata)])

/-- Phase 5: the final loop over `records`.  `record_mentions_map[idx]`
and `record_embed_map.get(idx)` are consumed positionally; `collectRefs`
always produces maps of length `records.length`
(`collectRefs_lengths` below), so the `headD`/`tail` defaults are never
exercised. -/
def assemble (did_to_profile uri_to_post : List (J × J)) :
    List J → List (List J) → List (Option J) → Except PyErr (List J)
  | [], _, _ => .ok []
  | rec :: rest, ms, es => do
    let one ← assembleOne did_to_profile uri_to_post rec (ms.headD []) ((es.headD none))
    let tail ← assemble did_to_profile uri_to_post rest ms.tail es.tail
    pure (one :: tail)

/-- `Hydration.hydrate_bulk`, with the class-level caches passed (and
returned) as explicit state.  On an exception the returned state is the
cache state at the raise point (phase 1 and the remote fetches do not
write the caches).  `asyncio.gather` propagates the failure of either
bulk call; when both fail the surfaced exception's identity is
scheduler-dependent and the user-side error is modelled first. -/
def hydrate_bulk (st : Caches) (records : List J) (api : ApiOracle) :
    Caches × Except PyErr (List J) :=
  match collectRefs records with
  | .error e => (st, .error e)
  | .ok acc =>
    match setUnion acc.all_dids acc.mention_dids_global with
    | .error e => (st, .error e)
    | .ok all_dids =>
      let (missing_dids, user1) := probeMissing st.user all_dids
      let (missing_uris, post1) := probeMissing st.post acc.all_uris
      let st1 : Caches := ⟨user1, post1⟩
      let fetchedU := if missing_dids.isEmpty then .ok []
        else get_user_data_for_dids api missing_dids
      let fetchedP := if missing_uris.isEmpty then .ok []
        else hydrate_records_for_uris api missing_uris
      match fetchedU, fetchedP with
      | .error e, _ => (st1, .error e)
      | .ok _, .error e => (st1, .error e)
      | .ok fu, .ok fp =>
        let st2 := publishFetched st1 fu fp
        let (did_to_profile, user3) := readback st2.user all_dids
        let (uri_to_post, post3) := readback st2.post acc.all_uris
        let st3 : Caches := ⟨user3, post3⟩
        match assemble did_to_profile uri_to_post records
            acc.record_mentions_map acc.record_embed_map with
        | .error e => (st3, .error e)
        | .ok out => (st3, .ok out)

/-! ## Batcher / admission control (`turbocharger.py`) -/

/-- Truthiness of `Optional[int]` (`None` and `0` are falsy). -/
def optTruthy : Option Int → Bool
  | none => false
  | some n => n ≠ 0

/-- The per-event admission decision in `TurboCharger.run`:
`(not self.modulo and not self.shard) or
 (record.get("time_us") % self.modulo == self.shard)`.
Python `%` on ints is floor-mod (`Int.fmod`); `None % x`, `x % None` and
non-numeric left operands raise `TypeError` (a `str` left operand would
be `%`-formatting, which also raises absent format specifiers — such
specifiers are not modelled); `int % 0` raises `ZeroDivisionError`;
`bool` is an int subtype; `int == None` is `False`. -/
def shardKeep (modulo shard : Option Int) (rec : J) : Except PyErr Bool :=
  if !optTruthy modulo && !optTruthy shard then .ok true
  else do
    let t ← pyGet rec (.str "time_us") .null
    let tv ← match t with
      | .int n => pure n
      | .bool b => pure (if b then (1 : Int) else 0)
      | _ => .error .typeError
    match modulo with
    | none => .error .typeError
    | some m =>
      if m = 0 then .error .zeroDivisionError
      else .ok (match shard with
        | some s => Int.fmod tv m = s
        | none => false)

/-- `TurboCharger._hydrate_and_release`: run the hydration, store the
result, and release the admission permit in a `finally` (the semaphore
is modelled as its count of available permits). -/
def hydrate_and_release (semaphore : Nat) (st : Caches) (records : List J)
    (api : ApiOracle) (store : List J → Except PyErr Unit) :
    Nat × Caches × Except PyErr Unit :=
  let (st', res) := hydrate_bulk st records api
  match res with
  | .error e => (semaphore + 1, st', .error e)
  | .ok enriched =>
    match store enriched with
    | .error e => (semaphore + 1, st', .error e)
    | .ok _ => (semaphore + 1, st', .ok ())

/-- `TurboCharger._process_batch`, run to task completion: acquire one
permit (the caller guarantees one is available; acquisition otherwise
blocks) and run `_hydrate_and_release` (buffer slicing is done by the
caller, which passes the batch). -/
def process_batch (semaphore : Nat) (st : Caches) (batch : List J)
    (api : ApiOracle) (store : List J → Except PyErr Unit) :
    Nat × Caches × Except PyErr Unit :=
  hydrate_and_release (semaphore - 1) st batch api store

/-- One client-visible cache operation. -/
inductive LRUOp where
  | get (key : J)
  | set (key value : J)

/-- Apply one operation to a cache, discarding `get`'s return value. -/
def LRUCache.applyOp (c : LRUCache) : LRUOp → LRUCache
  | .get k => (c.get k).2
  | .set k v => c.set k v

/-- Run a sequence of operations from a given cache state. -/
def LRUCache.runOps (c : LRUCache) : List LRUOp → LRUCache
  | [] => c
  | op :: rest => (c.applyOp op).runOps rest

/-! ## Association-list lemmas -/

section DictLemmas

variable {K V : Type} [DecidableEq K]

theorem dictFind_append (l₁ l₂ : List (K × V)) (k : K) :
    dictFind (l₁ ++ l₂) k =
      match dictFind l₁ k with
      | some v => some v
      | none => dictFind l₂ k := by
  induction l₁ with
  | nil => simp [dictFind]
  | cons kv rest ih =>
    obtain ⟨k', v'⟩ := kv
    by_cases h : k' = k <;> simp [dictFind, h, ih]

theorem dictFind_eq_none_iff (l : List (K × V)) (k : K) :
    dictFind l k = none ↔ k ∉ l.map Prod.fst := by
  induction l with
  | nil => simp [dictFind]
  | cons kv rest ih =>
    obtain ⟨k', v'⟩ := kv
    by_cases h : k' = k
    · subst h; simp [dictFind]
    · simp only [dictFind, if_neg h, List.map_cons, List.mem_cons, not_or, ih]
      constructor
      · intro hn; exact ⟨fun hk => h hk.symm, hn⟩
      · intro hn; exact hn.2

theorem dictFind_isSome_iff (l : List (K × V)) (k : K) :
    (dictFind l k).isSome ↔ k ∈ l.map Prod.fst := by
  induction l with
  | nil => simp [dictFind]
  | cons kv rest ih =>
    obtain ⟨k', v'⟩ := kv
    by_cases h : k' = k
    · subst h; simp [dictFind]
    · simp only [dictFind, if_neg h, List.map_cons, List.mem_cons, ih]
      constructor
      · intro hs; exact Or.inr hs
      · rintro (hk | hk)
        · exact absurd hk.symm h
        · exact hk

theorem dictFind_singleton (k k' : K) (v : V) :
    dictFind [(k, v)] k' = if k = k' then some v else none := by
  simp [dictFind]

theorem eraseKey_map_fst (l : List (K × V)) (k : K) :
    (eraseKey l k).map Prod.fst = (l.map Prod.fst).erase k := by
  induction l with
  | nil => simp [eraseKey]
  | cons kv rest ih =>
    obtain ⟨k', v'⟩ := kv
    by_cases h : k' = k
    · subst h; simp [eraseKey, List.erase_cons_head]
    · simp [eraseKey, h, ih, List.erase_cons_tail, h]

theorem eraseKey_length_of_mem (l : List (K × V)) (k : K)
    (h : k ∈ l.map Prod.fst) : (eraseKey l k).length + 1 = l.length := by
  induction l with
  | nil => simp at h
  | cons kv rest ih =>
    obtain ⟨k', v'⟩ := kv
    by_cases hk : k' = k
    · simp [eraseKey, hk]
    · simp only [List.map_cons, List.mem_cons] at h
      rcases h with h | h

      · exact absurd h.symm hk
      · simp [eraseKey, hk, ih h]

theorem eraseKey_of_not_mem (l : List (K × V)) (k : K)
    (h : k ∉ l.map Prod.fst) : eraseKey l k = l := by
  induction l with
  | nil => simp [eraseKey]
  | cons kv rest ih =>
    obtain ⟨k', v'⟩ := kv
    simp only [List.map_cons, List.mem_cons, not_or] at h
    simp [eraseKey, Ne.symm h.1, ih h.2]

theorem dictFind_eraseKey_ne (l : List (K × V)) (k k' : K) (h : k' ≠ k) :
    dictFind (eraseKey l k) k' = dictFind l k' := by
  induction l with
  | nil => simp [eraseKey]
  | cons kv rest ih =>
    obtain ⟨k₀, v₀⟩ := kv
    by_cases hk : k₀ = k
    · subst hk
      simp [eraseKey, dictFind, if_neg (Ne.symm h)]
    · by_cases hk' : k₀ = k'
      · simp only [eraseKey, if_neg hk, dictFind, if_pos hk']
      · simp only [eraseKey, if_neg hk, dictFind, if_neg hk', ih]

theorem dictFind_eraseKey_self (l : List (K × V)) (k : K)
    (hnd : (l.map Prod.fst).Nodup) : dictFind (eraseKey l k) k = none := by
  rw [dictFind_eq_none_iff, eraseKey_map_fst]
  exact (hnd.mem_erase_iff).not.mpr (by simp)

end DictLemmas

/-! ## LRU cache lemmas -/

/-- Well-formedness of a cache state: unique keys and bounded size.
It holds for a fresh cache and is preserved by `get` and `set` whenever
the capacity is at least 1. -/
def LRUCache.WF (c : LRUCache) : Prop :=
  (c.cache.map Prod.fst).Nodup ∧ c.cache.length ≤ c.max_size

theorem lru_get_absent (c : LRUCache) (k : J)
    (h : dictFind c.cache k = none) : c.get k = (.null, c) := by
  simp [LRUCache.get, h]

theorem lru_get_present (c : LRUCache) (k : J) (v : J)
    (h : dictFind c.cache k = some v) :
    c.get k = (v, { c with cache := eraseKey c.cache k ++ [(k, v)] }) := by
  simp [LRUCache.get, h]

theorem lru_get_find (c : LRUCache) (hwf : c.WF) (k k' : J) :
    dictFind (c.get k).2.cache k' = dictFind c.cache k' := by
  rcases hfind : dictFind c.cache k with _ | v
  · simp [LRUCache.get, hfind]
  · rw [lru_get_present c k v hfind]
    by_cases hk : k' = k
    · subst hk
      rw [dictFind_append, dictFind_eraseKey_self _ _ hwf.1]
      simp [dictFind, hfind]
    · rw [dictFind_append, dictFind_eraseKey_ne _ _ _ hk]
      rcases h' : dictFind c.cache k' with _ | w
      · simp only [h', dictFind_singleton, if_neg (Ne.symm hk)]
      · simp only [h']

theorem lru_get_length (c : LRUCache) (k : J) :
    (c.get k).2.cache.length = c.cache.length := by
  rcases hfind : dictFind c.cache k with _ | v
  · simp [LRUCache.get, hfind]
  · rw [lru_get_present c k v hfind]
    have hmem : k ∈ c.cache.map Prod.fst := by
      rw [← dictFind_isSome_iff, hfind]; rfl
    have := eraseKey_length_of_mem c.cache k hmem
    simp only [List.length_append, List.length_cons, List.length_nil]
    omega

theorem lru_wf_get (c : LRUCache) (hwf : c.WF) (k : J) : (c.get k).2.WF := by
  rcases hfind : dictFind c.cache k with _ | v
  · simp [LRUCache.get, hfind, hwf]
  · rw [lru_get_present c k v hfind]
    constructor
    · simp only [List.map_append, eraseKey_map_fst, List.map_cons, List.map_nil]
      rw [List.nodup_append]
      refine ⟨hwf.1.erase k, List.nodup_singleton k, ?_⟩
      intro a ha
      simp only [List.mem_singleton]
      intro hak
      subst hak
      exact absurd ((hwf.1.mem_erase_iff).mp ha).1 (by simp)
    · have := lru_get_length c k
      rw [lru_get_present c k v hfind] at this
      simp only at this
      rw [this]
      exact hwf.2

theorem lru_get_mru (c : LRUCache) (k : J) (v : J)
    (h : dictFind c.cache k = some v) : (c.get k).2.mru = some k := by
  rw [lru_get_present c k v h]
  simp [LRUCache.mru, LRUCache.keysOf]

theorem lru_set_present (c : LRUCache) (k v : J)
    (h : (dictFind c.cache k).isSome) :
    c.set k v = { c with cache := eraseKey c.cache k ++ [(k, v)] } := by
  simp [LRUCache.set, h]

theorem lru_set_new_notfull (c : LRUCache) (k v : J)
    (h : dictFind c.cache k = none) (hlen : c.cache.length < c.max_size) :
    c.set k v = { c with cache := c.cache ++ [(k, v)] } := by
  simp [LRUCache.set, h, Nat.not_le.mpr hlen]

theorem lru_set_new_full (c : LRUCache) (k v : J)
    (h : dictFind c.cache k = none) (hlen : c.max_size ≤ c.cache.length) :
    c.set k v = { c with cache := c.cache.tail ++ [(k, v)] } := by
  simp [LRUCache.set, h, hlen]

theorem dictFind_tail_none {K V : Type} [DecidableEq K] (l : List (K × V)) (k : K)
    (h : dictFind l k = none) : dictFind l.tail k = none := by
  rw [dictFind_eq_none_iff] at h ⊢
  intro hmem
  exact h (List.map_subset Prod.fst (List.tail_subset l) hmem)

theorem lru_set_find_self (c : LRUCache) (hwf : c.WF) (k v : J) :
    dictFind (c.set k v).cache k = some v := by
  rcases hfind : dictFind c.cache k with _ | w
  · by_cases hlen : c.max_size ≤ c.cache.length
    · rw [lru_set_new_full c k v hfind hlen, dictFind_append]
      simp [dictFind_tail_none c.cache k hfind, dictFind_singleton]
    · rw [lru_set_new_notfull c k v hfind (Nat.not_le.mp hlen), dictFind_append]
      simp [hfind, dictFind_singleton]
  · rw [lru_set_present c k v (by simp [hfind]), dictFind_append]
    simp [dictFind_eraseKey_self _ _ hwf.1, dictFind_singleton]

theorem lru_set_find_other (c : LRUCache) (k v k' : J) (hk : k' ≠ k)
    (hsafe : (dictFind c.cache k).isSome ∨ c.cache.length < c.max_size) :
    dictFind (c.set k v).cache k' = dictFind c.cache k' := by
  rcases hfind : dictFind c.cache k with _ | w
  · rcases hsafe with hs | hs
    · rw [hfind] at hs; exact absurd hs (by simp)
    · rw [lru_set_new_notfull c k v hfind hs, dictFind_append]
      rcases h' : dictFind c.cache k' with _ | u
      · simp only [dictFind_singleton, if_neg (Ne.symm hk)]
      · rfl
  · rw [lru_set_present c k v (by simp [hfind]), dictFind_append,
      dictFind_eraseKey_ne _ _ _ hk]
    rcases h' : dictFind c.cache k' with _ | u
    · simp only [dictFind_singleton, if_neg (Ne.symm hk)]
    · rfl

theorem lru_set_length_present (c : LRUCache) (k v : J)
    (h : (dictFind c.cache k).isSome) :
    (c.set k v).cache.length = c.cache.length := by
  rw [lru_set_present c k v h]
  have hmem : k ∈ c.cache.map Prod.fst := (dictFind_isSome_iff _ _).mp h
  have := eraseKey_length_of_mem c.cache k hmem
  simp only [List.length_append, List.length_cons, List.length_nil]
  omega

theorem lru_set_mru (c : LRUCache) (k v : J) : (c.set k v).mru = some k := by
  unfold LRUCache.set
  by_cases h : (dictFind c.cache k).isSome <;>
    by_cases hlen : c.max_size ≤ c.cache.length <;>
    simp [h, hlen, LRUCache.mru, LRUCache.keysOf]

theorem lru_wf_set (c : LRUCache) (hwf : c.WF) (hcap : 1 ≤ c.max_size)
    (k v : J) : (c.set k v).WF := by
  rcases hfind : dictFind c.cache k with _ | w
  · have hnotmem : k ∉ c.cache.map Prod.fst := (dictFind_eq_none_iff _ _).mp hfind
    by_cases hlen : c.max_size ≤ c.cache.length
    · rw [lru_set_new_full c k v hfind hlen]
      constructor
      · simp only [List.map_append, List.map_cons, List.map_nil]
        rw [List.nodup_append]
        have htail : c.cache.tail.map Prod.fst = (c.cache.map Prod.fst).tail := by
          rcases c.cache with _ | ⟨hd, tl⟩ <;> simp
        refine ⟨?_, List.nodup_singleton k, ?_⟩
        · rw [htail]; exact hwf.1.sublist (List.tail_sublist _)
        · intro a ha
          simp only [List.mem_singleton]
          intro hak
          subst hak
          rw [htail] at ha
          exact hnotmem (List.mem_of_mem_tail ha)
      · have hlt : 1 ≤ c.cache.length := le_trans hcap hlen
        have hle := hwf.2
        simp only [List.length_append, List.length_tail, List.length_cons,
          List.length_nil]
        omega
    · rw [lru_set_new_notfull c k v hfind (Nat.not_le.mp hlen)]
      constructor
      · simp only [List.map_append, List.map_cons, List.map_nil]
        rw [List.nodup_append]
        exact ⟨hwf.1, List.nodup_singleton k,
          fun a ha => by
            simp only [List.mem_singleton]
            intro hak; subst hak; exact hnotmem ha⟩
      · simp only [List.length_append, List.length_cons, List.length_nil]
        omega
  · have hsome : (dictFind c.cache k).isSome := by simp [hfind]
    rw [lru_set_present c k v hsome]
    constructor
    · simp only [List.map_append, eraseKey_map_fst, List.map_cons, List.map_nil]
      rw [List.nodup_append]
      refine ⟨hwf.1.erase k, List.nodup_singleton k, ?_⟩
      intro a ha
      simp only [List.mem_singleton]
      intro hak
      subst hak
      exact absurd ((hwf.1.mem_erase_iff).mp ha).1 (by simp)
    · have := lru_set_length_present c k v hsome
      rw [lru_set_present c k v hsome] at this
      simp only at this
      rw [this]
      exact hwf.2

theorem lru_wf_empty (n : Nat) : (LRUCache.empty n).WF := by
  constructor <;> simp [LRUCache.empty]

theorem lru_wf_applyOp (c : LRUCache) (hwf : c.WF) (hcap : 1 ≤ c.max_size)
    (op : LRUOp) : (c.applyOp op).WF := by
  cases op with
  | get k => exact lru_wf_get c hwf k
  | set k v => exact lru_wf_set c hwf hcap k v

theorem lru_applyOp_max (c : LRUCache) (op : LRUOp) :
    (c.applyOp op).max_size = c.max_size := by
  cases op with
  | get k =>
    simp only [LRUCache.applyOp]
    rcases h : dictFind c.cache k with _ | v
    · rw [lru_get_absent c k h]
    · rw [lru_get_present c k v h]
  | set k v =>
    simp only [LRUCache.applyOp]
    unfold LRUCache.set
    by_cases h : (dictFind c.cache k).isSome <;>
      by_cases hlen : c.max_size ≤ c.cache.length <;> simp [h, hlen]

theorem lru_wf_runOps (c : LRUCache) (hwf : c.WF) (hcap : 1 ≤ c.max_size)
    (ops : List LRUOp) : (c.runOps ops).WF ∧ (c.runOps ops).max_size = c.max_size := by
  induction ops generalizing c with
  | nil => exact ⟨hwf, rfl⟩
  | cons op rest ih =>
    have h1 := lru_wf_applyOp c hwf hcap op
    have h2 := lru_applyOp_max c op
    have := ih (c.applyOp op) h1 (h2 ▸ hcap)
    exact ⟨this.1, this.2.trans h2⟩

theorem lru_set_evict_props (c : LRUCache) (hwf : c.WF) (hcap : 1 ≤ c.max_size)
    (k v : J) (habs : dictFind c.cache k = none)
    (hfull : c.cache.length = c.max_size) :
    ∃ kl, c.lru = some kl ∧ kl ≠ k ∧
      (c.set k v).cache = c.cache.tail ++ [(k, v)] ∧
      dictFind (c.set k v).cache kl = none ∧
      (∀ k', k' ≠ kl → k' ≠ k →
        dictFind (c.set k v).cache k' = dictFind c.cache k') ∧
      (c.set k v).cache.length = c.max_size := by
  have hfulle : c.max_size ≤ c.cache.length := hfull.ge
  have hset := lru_set_new_full c k v habs hfulle
  rcases hc : c.cache with _ | ⟨⟨kl, vl⟩, t⟩
  · rw [hc] at hfull; simp at hfull; omega
  · have hnotmem : k ∉ c.cache.map Prod.fst := (dictFind_eq_none_iff _ _).mp habs
    have hklmem : kl ∈ c.cache.map Prod.fst := by rw [hc]; simp
    have hklk : kl ≠ k := fun h => hnotmem (h ▸ hklmem)
    have hnd : (c.cache.map Prod.fst).Nodup := hwf.1
    rw [hc] at hnd
    simp only [List.map_cons, List.nodup_cons] at hnd
    refine ⟨kl, ?_, hklk, ?_, ?_, ?_, ?_⟩
    · simp [LRUCache.lru, LRUCache.keysOf, hc]
    · rw [hset, hc]
    · rw [hset, hc]
      simp only [List.tail_cons, dictFind_append]
      have ht : dictFind t kl = none := (dictFind_eq_none_iff _ _).mpr hnd.1
      simp [ht, dictFind_singleton, Ne.symm hklk]
    · intro k' hkl hk
      rw [hset, hc]
      simp only [List.tail_cons, dictFind_append]
      rcases h' : dictFind t k' with _ | u
      · simp only [h', dictFind_singleton, if_neg (Ne.symm hk), dictFind,
          if_neg (Ne.symm hkl)]
      · simp only [h', dictFind, if_neg (Ne.symm hkl)]
    · rw [hset, hc]
      rw [hc] at hfull
      simp only [List.tail_cons, List.length_append, List.length_cons,
        List.length_nil] at hfull ⊢
      omega

/-- C1: over every operation sequence on an LRU cache of capacity `n ≥ 1`
starting empty — (a) the size never exceeds `n`; (b) `get` on an absent
key returns the absent signal and leaves the state unchanged; (c) `get`
on a present key returns its value, makes it the MRU key, and changes no
mapping and no size; (d) `set` on a present key keeps the size, stores
the new value, moves the key to MRU, and evicts nothing; (e) `set` on an
absent key at capacity evicts exactly the LRU key, stores the new key at
MRU, keeps every other mapping, and keeps the size at `n`. -/
theorem C1_lru_invariants (n : Nat) (hn : 1 ≤ n) (ops : List LRUOp)
    (c : LRUCache) (hc : c = (LRUCache.empty n).runOps ops) :
    c.cache.length ≤ n ∧
    (∀ k, dictFind c.cache k = none → c.get k = (.null, c)) ∧
    (∀ k v, dictFind c.cache k = some v →
      (c.get k).1 = v ∧ (c.get k).2.mru = some k ∧
      (∀ k', dictFind (c.get k).2.cache k' = dictFind c.cache k') ∧
      (c.get k).2.cache.length = c.cache.length) ∧
    (∀ k v₀ v, dictFind c.cache k = some v₀ →
      (c.set k v).cache.length = c.cache.length ∧
      dictFind (c.set k v).cache k = some v ∧
      (c.set k v).mru = some k ∧
      (∀ k', k' ≠ k → dictFind (c.set k v).cache k' = dictFind c.cache k')) ∧
    (∀ k v, dictFind c.cache k = none → c.cache.length = n →
      ∃ kl, c.lru = some kl ∧ kl ≠ k ∧
        dictFind (c.set k v).cache kl = none ∧
        dictFind (c.set k v).cache k = some v ∧
        (c.set k v).mru = some k ∧
        (c.set k v).cache.length = n ∧
        (∀ k', k' ≠ kl → k' ≠ k →
          dictFind (c.set k v).cache k' = dictFind c.cache k')) := by
  have hrun := lru_wf_runOps (LRUCache.empty n) (lru_wf_empty n) (by simpa [LRUCache.empty] using hn) ops
  have hwf : c.WF := hc ▸ hrun.1
  have hmax : c.max_size = n := by
    rw [hc, hrun.2]; rfl
  refine ⟨?_, ?_, ?_, ?_, ?_⟩
  · exact hmax ▸ hwf.2
  · exact fun k h => lru_get_absent c k h
  · intro k v h
    refine ⟨?_, lru_get_mru c k v h, fun k' => lru_get_find c hwf k k', lru_get_length c k⟩
    rw [lru_get_present c k v h]
  · intro k v₀ v h
    have hsome : (dictFind c.cache k).isSome := by simp [h]
    exact ⟨lru_set_length_present c k v hsome, lru_set_find_self c hwf k v,
      lru_set_mru c k v,
      fun k' hk' => lru_set_find_other c k v k' hk' (Or.inl hsome)⟩
  · intro k v h hfull
    obtain ⟨kl, h1, h2, _, h4, h5, h6⟩ :=
      lru_set_evict_props c hwf (hmax ▸ hn) k v h (by rw [hfull, hmax])
    exact ⟨kl, h1, h2, h4, lru_set_find_self c hwf k v, lru_set_mru c k v,
      by rw [h6, hmax], h5⟩

/-- Witness for C1 at capacity 1 and a two-operation history. -/
theorem C1_lru_invariants_witness :
    1 ≤ 1 ∧
    ((LRUCache.empty 1).runOps
      [LRUOp.set (J.str "a") (J.int 1), LRUOp.get (J.str "a")]).cache.length ≤ 1 :=
  ⟨by decide,
   (C1_lru_invariants 1 (by decide)
     [LRUOp.set (J.str "a") (J.int 1), LRUOp.get (J.str "a")] _ rfl).1⟩

/-! ## Chunking lemmas (`BlueskyAPI._chunked_map`) -/

theorem chunksGo_len_aux {α : Type} (m : Nat) :
    ∀ (k : Nat) (l : List α), l.length ≤ k →
      (chunksGo (m + 1) k l).length = (l.length + m) / (m + 1) := by
  intro k
  induction k with
  | zero =>
    intro l hl
    have : l = [] := List.length_eq_zero.mp (Nat.le_zero.mp hl)
    subst this
    have hz : m / (m + 1) = 0 := Nat.div_eq_of_lt (by omega)
    simp [chunksGo, hz]
  | succ k ih =>
    intro l hl
    match l with
    | [] =>
      have hz : m / (m + 1) = 0 := Nat.div_eq_of_lt (by omega)
      simp [chunksGo, hz]
    | x :: xs =>
      rw [chunksGo]
      have hdrop : ((x :: xs).drop (m + 1)).length = (xs.length + 1) - (m + 1) := by
        simp [List.length_drop]
      have hle : ((x :: xs).drop (m + 1)).length ≤ k := by
        simp only [List.length_cons] at hl
        rw [hdrop]; omega
      rw [List.length_cons, ih _ hle, hdrop, List.length_cons]
      by_cases hcase : xs.length + 1 ≤ m + 1
      · have h0 : xs.length + 1 - (m + 1) = 0 := by omega
        rw [h0]
        have hz : (0 + m) / (m + 1) = 0 := Nat.div_eq_of_lt (by omega)
        rw [hz]
        have h1 : (xs.length + 1 + m) / (m + 1) = 1 := by
          apply Nat.div_eq_of_lt_le (by omega) (by omega)
        rw [h1]
      · have heq : xs.length + 1 - (m + 1) + m = xs.length := by omega
        rw [heq]
        have : xs.length + 1 + m = ((xs.length - 1) + 1) + (m + 1) := by omega
        rw [this, Nat.add_div_right _ (Nat.succ_pos m)]
        have h3 : xs.length - 1 + 1 = xs.length := by omega
        rw [h3]

/-- The number of chunks is the ceiling `⌈len / (m+1)⌉` (the recursion
fuel is the list length: each chunk consumes at least one element). -/
theorem chunks_length {α : Type} (m : Nat) (l : List α) :
    (chunks (m + 1) l).length = (l.length + m) / (m + 1) :=
  chunksGo_len_aux m l.length l le_rfl

theorem chunksGo_mem_aux {α : Type} (m : Nat) :
    ∀ (k : Nat) (l : List α), l.length ≤ k →
      ∀ c ∈ chunksGo (m + 1) k l, c.length ≤ m + 1 ∧ c ≠ [] := by
  intro k
  induction k with
  | zero =>
    intro l hl
    have : l = [] := List.length_eq_zero.mp (Nat.le_zero.mp hl)
    subst this
    simp [chunksGo]
  | succ k ih =>
    intro l hl c hc
    match l with
    | [] => simp [chunksGo] at hc
    | x :: xs =>
      rw [chunksGo] at hc
      rcases List.mem_cons.mp hc with h | h
      · subst h
        constructor
        · simp
        · simp
      · have hle : ((x :: xs).drop (m + 1)).length ≤ k := by
          simp only [List.length_cons] at hl
          simp [List.length_drop]; omega
        exact ih _ hle c h

/-- Every chunk carries at most `m+1` keys and is nonempty. -/
theorem chunks_mem {α : Type} (m : Nat) (l : List α) :
    ∀ c ∈ chunks (m + 1) l, c.length ≤ m + 1 ∧ c ≠ [] :=
  chunksGo_mem_aux m l.length l le_rfl

theorem chunksGo_flatten_aux {α : Type} (m : Nat) :
    ∀ (k : Nat) (l : List α), l.length ≤ k → (chunksGo (m + 1) k l).flatten = l := by
  intro k
  induction k with
  | zero =>
    intro l hl
    have : l = [] := List.length_eq_zero.mp (Nat.le_zero.mp hl)
    subst this
    simp [chunksGo]
  | succ k ih =>
    intro l hl
    match l with
    | [] => simp [chunksGo]
    | x :: xs =>
      rw [chunksGo]
      have hle : ((x :: xs).drop (m + 1)).length ≤ k := by
        simp only [List.length_cons] at hl
        simp [List.length_drop]; omega
      simp only [List.flatten_cons, ih _ hle]
      exact List.take_append_drop (m + 1) (x :: xs)

/-- The chunks together carry exactly the input keys, in order. -/
theorem chunks_flatten {α : Type} (m : Nat) (l : List α) :
    (chunks (m + 1) l).flatten = l :=
  chunksGo_flatten_aux m l.length l le_rfl

/-- An empty input yields an empty dict without any chunk to fetch. -/
theorem chunked_map_empty {T K V : Type} [DecidableEq K]
    (n : Nat) (fetcher : List T → Except PyErr (List (K × V))) :
    chunked_map [] n fetcher = .ok [] ∧ chunks n ([] : List T) = [] := by
  constructor
  · simp [chunked_map]
  · rfl

/-- On a nonempty input, `_chunked_map` is the fetch of every chunk (one
remote call per chunk) followed by the in-order dict merge. -/
theorem chunked_map_calls {T K V : Type} [DecidableEq K]
    (items : List T) (n : Nat) (hne : ¬items.isEmpty)
    (fetcher : List T → Except PyErr (List (K × V))) :
    chunked_map items n fetcher =
      ((chunks n items).mapM fetcher).map (fun rs => rs.foldl dictUpdate []) := by
  unfold chunked_map
  rw [if_neg hne]
  rcases h : (chunks n items).mapM fetcher with e | rs
  · simp [Except.map, bind, Except.bind, h]
  · simp [Except.map, bind, Except.bind, h]
    rfl

/-! ## Probe lemmas -/

theorem lru_get_fst (c : LRUCache) (k : J) :
    (c.get k).1 = (dictFind c.cache k).getD .null := by
  unfold LRUCache.get
  rcases dictFind c.cache k <;> simp

theorem lru_get_max (c : LRUCache) (k : J) :
    (c.get k).2.max_size = c.max_size := by
  unfold LRUCache.get
  rcases dictFind c.cache k <;> simp

theorem lru_set_max (c : LRUCache) (k v : J) :
    (c.set k v).max_size = c.max_size := by
  unfold LRUCache.set
  by_cases h : (dictFind c.cache k).isSome <;>
    by_cases hlen : c.max_size ≤ c.cache.length <;> simp [h, hlen]

theorem probeMissing_reduce (c : LRUCache) (k : J) (rest : List J) :
    probeMissing c (k :: rest) =
      if (c.get k).1 = .null
      then (k :: (probeMissing (c.get k).2 rest).1, (probeMissing (c.get k).2 rest).2)
      else ((probeMissing (c.get k).2 rest).1, (probeMissing (c.get k).2 rest).2) := by
  rcases hg : c.get k with ⟨v, c'⟩
  simp only [probeMissing, hg]

/-- The phase-2 probe collects exactly the keys whose stored value is
absent (or a stored `None`), promotes every hit to MRU, and changes no
mapping, no well-formedness, no capacity and no size. -/
theorem probeMissing_spec (l : List J) : ∀ (c : LRUCache), c.WF →
    (probeMissing c l).1 =
      l.filter (fun k => ((dictFind c.cache k).getD .null) = .null) ∧
    (∀ k, dictFind (probeMissing c l).2.cache k = dictFind c.cache k) ∧
    (probeMissing c l).2.WF ∧
    (probeMissing c l).2.max_size = c.max_size ∧
    (probeMissing c l).2.cache.length = c.cache.length := by
  induction l with
  | nil =>
    intro c hwf
    exact ⟨rfl, fun k => rfl, hwf, rfl, rfl⟩
  | cons k rest ih =>
    intro c hwf
    have hwf' := lru_wf_get c hwf k
    obtain ⟨ih1, ih2, ih3, ih4, ih5⟩ := ih (c.get k).2 hwf'
    have hfilter : rest.filter
        (fun x => ((dictFind (c.get k).2.cache x).getD .null) = .null) =
        rest.filter (fun x => ((dictFind c.cache x).getD .null) = .null) := by
      apply List.filter_congr
      intro x _
      rw [lru_get_find c hwf k x]
    rw [probeMissing_reduce]
    by_cases hv : (c.get k).1 = .null
    · rw [if_pos hv]
      rw [lru_get_fst] at hv
      refine ⟨?_, ?_, ih3, ih4.trans (lru_get_max c k),
        ih5.trans (lru_get_length c k)⟩
      · rw [List.filter_cons, if_pos (by simp [hv]), ih1, hfilter]
      · intro k'
        rw [ih2 k', lru_get_find c hwf k k']
    · rw [if_neg hv]
      rw [lru_get_fst] at hv
      refine ⟨?_, ?_, ih3, ih4.trans (lru_get_max c k),
        ih5.trans (lru_get_length c k)⟩
      · rw [List.filter_cons, if_neg (by simp [hv]), ih1, hfilter]
      · intro k'
        rw [ih2 k', lru_get_find c hwf k k']

/-- C3: with `missingDIDs`/`missingURIs` the keys found absent at the
phase-2 probe, the profile fetch dispatches exactly
`⌈|missingDIDs|/25⌉` chunk calls and the post fetch exactly
`⌈|missingURIs|/25⌉` (`_chunked_map` maps the fetcher over `chunks 25`,
so the chunk count is the remote call count); every chunk is nonempty
with at most 25 keys; the chunks together carry exactly the missing
keys; and an empty missing set produces an empty result map with no
chunk to call. -/
theorem C3_remote_call_counts (st : Caches) (hwfu : st.user.WF) (hwfp : st.post.WF)
    (records : List J) (acc : RefAcc) (hacc : collectRefs records = .ok acc)
    (all_dids : List J)
    (hdids : setUnion acc.all_dids acc.mention_dids_global = .ok all_dids)
    (api : ApiOracle) (md mu : List J)
    (hmd : md = (probeMissing st.user all_dids).1)
    (hmu : mu = (probeMissing st.post acc.all_uris).1) :
    md = all_dids.filter (fun k => ((dictFind st.user.cache k).getD .null) = .null) ∧
    mu = acc.all_uris.filter (fun k => ((dictFind st.post.cache k).getD .null) = .null) ∧
    (chunks 25 md).length = (md.length + 24) / 25 ∧
    (chunks 25 mu).length = (mu.length + 24) / 25 ∧
    (∀ c ∈ chunks 25 md, c.length ≤ 25 ∧ c ≠ []) ∧
    (∀ c ∈ chunks 25 mu, c.length ≤ 25 ∧ c ≠ []) ∧
    (chunks 25 md).flatten = md ∧
    (chunks 25 mu).flatten = mu ∧
    (md = [] → chunks 25 md = ([] : List (List J)) ∧
      get_user_data_for_dids api md = .ok []) ∧
    (mu = [] → chunks 25 mu = ([] : List (List J)) ∧
      hydrate_records_for_uris api mu = .ok []) := by
  subst hmd hmu
  obtain ⟨hu1, -, -, -, -⟩ := probeMissing_spec all_dids st.user hwfu
  obtain ⟨hp1, -, -, -, -⟩ := probeMissing_spec acc.all_uris st.post hwfp
  refine ⟨hu1, hp1, chunks_length 24 _, chunks_length 24 _, chunks_mem 24 _,
    chunks_mem 24 _, chunks_flatten 24 _, chunks_flatten 24 _, ?_, ?_⟩
  · intro h
    rw [h]
    exact ⟨rfl, by simp [get_user_data_for_dids, chunked_map]⟩
  · intro h
    rw [h]
    exact ⟨rfl, by simp [hydrate_records_for_uris, chunked_map]⟩

/-- Witness for C3: one record carrying only a posting DID against empty
caches — one missing DID, one remote chunk. -/
theorem C3_remote_call_counts_witness :
    collectRefs [J.obj [(J.str "did", J.str "D1")]] =
      .ok ⟨[[]], [none], [J.str "D1"], [], []⟩ ∧
    (chunks 25 [J.str "D1"]).length = (1 + 24) / 25 := by
  refine ⟨rfl, ?_⟩
  have h := C3_remote_call_counts ⟨LRUCache.empty 5, LRUCache.empty 5⟩
    (lru_wf_empty 5) (lru_wf_empty 5)
    [J.obj [(J.str "did", J.str "D1")]]
    ⟨[[]], [none], [J.str "D1"], [], []⟩ rfl
    [J.str "D1"] rfl
    ⟨fun _ => .ok [], fun _ => .ok []⟩
    [J.str "D1"] [] rfl rfl
  exact h.2.2.1

/-! ## C6: the shard filter -/

/-- C6 counterexample: the claim says that with `modulo = 0` the filter
is bypassed regardless of `shard`, and that an event lacking `time_us`
under an active filter is dropped without error.  The code instead
evaluates `time_us % 0` and raises `ZeroDivisionError` in the first
case, and evaluates `None % 3` and raises `TypeError` in the second. -/
theorem C6_shard_filter_counterexample :
    shardKeep (some 0) (some 1) (J.obj [(J.str "time_us", J.int 10)]) =
      .error .zeroDivisionError ∧
    shardKeep (some 3) (some 0) (J.obj [(J.str "did", J.str "D")]) =
      .error .typeError :=
  ⟨rfl, rfl⟩

/-- C6 (amended): the filter is bypassed exactly when `modulo` and
`shard` are both falsy (zero or unset); when either is truthy and the
event carries an integer `time_us`, with positive `modulo = m` and
`shard = s` the event is kept iff `time_us mod m = s`; with either
truthy and `time_us` absent the code raises `TypeError` instead of
dropping the event; and with truthy `shard` but zero or unset `modulo`
the code raises instead of bypassing. -/
theorem C6_shard_filter (modulo shard : Option Int) (rec : J)
    (fields : List (J × J)) (hrec : rec = .obj fields) (tv m s : Int) :
    (optTruthy modulo = false → optTruthy shard = false →
      shardKeep modulo shard rec = .ok true) ∧
    (optTruthy modulo || optTruthy shard →
      dictFind fields (J.str "time_us") = some (.int tv) →
      modulo = some m → m ≠ 0 → shard = some s →
      shardKeep modulo shard rec = .ok (Int.fmod tv m = s)) ∧
    (optTruthy modulo || optTruthy shard →
      dictFind fields (J.str "time_us") = none →
      shardKeep modulo shard rec = .error .typeError) ∧
    (optTruthy shard = true → optTruthy modulo = false →
      dictFind fields (J.str "time_us") = some (.int tv) →
      shardKeep modulo shard rec ≠ .ok true) := by
  refine ⟨?_, ?_, ?_, ?_⟩
  · intro h1 h2
    simp [shardKeep, h1, h2]
  · intro hact hfind hm hm0 hs
    subst hm hs
    have hif : ¬((!optTruthy (some m) && !optTruthy (some s)) = true) := by
      intro hc
      rw [Bool.and_eq_true, Bool.not_eq_true', Bool.not_eq_true'] at hc
      rw [hc.1, hc.2] at hact
      simp at hact
    unfold shardKeep
    rw [if_neg hif]
    simp [pyGet, hrec, hfind, bind, Except.bind, pure, Except.pure, hm0]
  · intro hact hfind
    have hif : ¬((!optTruthy modulo && !optTruthy shard) = true) := by
      intro hc
      rw [Bool.and_eq_true, Bool.not_eq_true', Bool.not_eq_true'] at hc
      rw [hc.1, hc.2] at hact
      simp at hact
    unfold shardKeep
    rw [if_neg hif]
    simp [pyGet, hrec, hfind, bind, Except.bind, pure, Except.pure]
  · intro hs hm hfind
    have hif : ¬((!optTruthy modulo && !optTruthy shard) = true) := by
      intro hc
      rw [Bool.and_eq_true, Bool.not_eq_true', Bool.not_eq_true'] at hc
      rw [hc.2] at hs
      simp at hs
    unfold shardKeep
    rw [if_neg hif]
    rcases modulo with _ | mv
    · simp [pyGet, hrec, hfind, bind, Except.bind, pure, Except.pure]
    · have hmv : mv = 0 := by
        by_contra hne
        simp [optTruthy, hne] at hm
      subst hmv
      simp [pyGet, hrec, hfind, bind, Except.bind, pure, Except.pure]

/-- Witness for the amended C6 at `modulo = 3`, `shard = 0`,
`time_us = 9`. -/
theorem C6_shard_filter_witness :
    shardKeep (some 3) (some 0) (J.obj [(J.str "time_us", J.int 9)]) = .ok true := by
  have h := (C6_shard_filter (some 3) (some 0) _ [(J.str "time_us", J.int 9)]
    rfl 9 3 0).2.1 (by decide) rfl rfl (by decide) rfl
  simpa using h

/-! ## C7: totality of the phase-1 extraction -/

/-- Total accessor used by the well-shapedness predicate: the dict value
at `key`, or `default` when the key is absent or `o` is not a dict. -/
def objGetD (o : J) (key default : J) : J :=
  match o with
  | .obj _fs => (dictFind _fs key).getD default
  | _ => default

/-- Whether a value is a dict. -/
def isObjB : J → Bool
  | .obj _ => true
  | _ => false

/-- Whether a value is a list. -/
def isArrB : J → Bool
  | .arr _ => true
  | _ => false

/-- The elements of a list value (empty for anything else). -/
def elemsOf : J → List J
  | .arr xs => xs
  | _ => []

/-- A value that is only inserted into a Python set when truthy is safe
iff it is hashable whenever it is truthy. -/
def addSafe (v : J) : Bool := !v.truthy || v.hashable

/-- Well-shaped facet feature: a dict whose `did` is insertable when the
`$type` marks a mention. -/
def shapedFeature (feature : J) : Bool :=
  isObjB feature &&
  (if objGetD feature (.str "$type") .null = .str "app.bsky.richtext.facet#mention"
   then addSafe (objGetD feature (.str "did") .null)
   else true)

/-- Well-shaped facet: a dict whose `features` (defaulting to `[]`) is a
list of well-shaped features. -/
def shapedFacet (facet : J) : Bool :=
  isObjB facet &&
  (isArrB (objGetD facet (.str "features") (.arr [])) &&
   (elemsOf (objGetD facet (.str "features") (.arr []))).all shapedFeature)

/-- The `commit.record` node of a record, with the source's `{}`
defaults. -/
def crecOf (rec : J) : J :=
  objGetD (objGetD rec (.str "commit") (.obj [])) (.str "record") (.obj [])

/-- Well-shaped record for the phase-1 extraction: every intermediate
node the extractor calls `.get` on is a dict (when present), `facets`
and each `features` are lists, and every reference value that can be
added to a set is hashable when truthy.  Absent nodes are always fine
(the source supplies `{}`/`[]` defaults). -/
def shapedRecord (rec : J) : Bool :=
  isObjB rec &&
  addSafe (objGetD rec (.str "did") .null) &&
  (isObjB (objGetD rec (.str "commit") (.obj [])) &&
   (isObjB (crecOf rec) &&
    (isObjB (objGetD (crecOf rec) (.str "embed") (.obj [])) &&
     (if objGetD (objGetD (crecOf rec) (.str "embed") (.obj [])) (.str "$type") .null =
          .str "app.bsky.embed.record"
      then
        isObjB (objGetD (objGetD (crecOf rec) (.str "embed") (.obj []))
          (.str "record") (.obj [])) &&
        addSafe (objGetD (objGetD (objGetD (crecOf rec) (.str "embed") (.obj []))
          (.str "record") (.obj [])) (.str "uri") .null)
      else true) &&
     (isArrB (objGetD (crecOf rec) (.str "facets") (.arr [])) &&
      (elemsOf (objGetD (crecOf rec) (.str "facets") (.arr []))).all shapedFacet) &&
     (isObjB (objGetD (crecOf rec) (.str "reply") (.obj [])) &&
      (isObjB (objGetD (objGetD (crecOf rec) (.str "reply") (.obj []))
         (.str "parent") (.obj [])) &&
       addSafe (objGetD (objGetD (objGetD (crecOf rec) (.str "reply") (.obj []))
         (.str "parent") (.obj [])) (.str "uri") .null)) &&
      (isObjB (objGetD (objGetD (crecOf rec) (.str "reply") (.obj []))
         (.str "root") (.obj [])) &&
       addSafe (objGetD (objGetD (objGetD (crecOf rec) (.str "reply") (.obj []))
         (.str "root") (.obj [])) (.str "uri") .null))))))

theorem pyGet_obj (o : J) (ho : isObjB o = true) (key default : J) :
    pyGet o key default = .ok (objGetD o key default) := by
  cases o <;> simp_all [isObjB, pyGet, objGetD]

theorem guarded_setAdd_ok (s : List J) (v : J) (h : addSafe v = true) :
    ∃ s', guardedAdd s v = Except.ok s' := by
  unfold guardedAdd
  by_cases ht : v.truthy = true
  · have hh : v.hashable = true := by
      rcases Bool.or_eq_true_iff.mp h with h' | h'
      · rw [ht] at h'; simp at h'
      · exact h'
    exact ⟨if s.contains v then s else s ++ [v], by simp [ht, setAdd, hh]⟩
  · exact ⟨s, by simp [ht, pure, Except.pure]⟩

theorem foldlM_ok {α β : Type} (f : β → α → Except PyErr β) (l : List α)
    (h : ∀ a ∈ l, ∀ b, ∃ b', f b a = .ok b') :
    ∀ b, ∃ b', l.foldlM f b = .ok b' := by
  induction l with
  | nil => intro b; exact ⟨b, rfl⟩
  | cons x xs ih =>
    intro b
    obtain ⟨b1, hb1⟩ := h x (List.mem_cons_self x xs) b
    obtain ⟨b2, hb2⟩ := ih (fun a ha b => h a (List.mem_cons_of_mem x ha) b) b1
    exact ⟨b2, by simp [List.foldlM, hb1, bind, Except.bind, hb2]⟩

theorem scanFeature_ok (feature : J) (h : shapedFeature feature = true)
    (acc : List J × List J) : ∃ acc', scanFeature acc feature = .ok acc' := by
  rw [shapedFeature, Bool.and_eq_true] at h
  obtain ⟨hobj, hcase⟩ := h
  unfold scanFeature
  rw [pyGet_obj feature hobj]
  by_cases hty : objGetD feature (.str "$type") .null =
      .str "app.bsky.richtext.facet#mention"
  · rw [if_pos hty] at hcase
    simp only [bind, Except.bind, hty, if_pos rfl]
    rw [pyGet_obj feature hobj]
    by_cases ht : (objGetD feature (.str "did") .null).truthy = true
    · have hh : (objGetD feature (.str "did") .null).hashable = true := by
        rcases Bool.or_eq_true_iff.mp hcase with h' | h'
        · rw [ht] at h'; simp at h'
        · exact h'
      refine ⟨(if acc.1.contains (objGetD feature (.str "did") .null) then acc.1
          else acc.1 ++ [objGetD feature (.str "did") .null],
        if acc.2.contains (objGetD feature (.str "did") .null) then acc.2
          else acc.2 ++ [objGetD feature (.str "did") .null]), ?_⟩
      simp [ht, setAdd, hh, bind, Except.bind, pure, Except.pure]
    · refine ⟨acc, ?_⟩
      simp [ht, pure, Except.pure]
  · refine ⟨acc, ?_⟩
    simp [bind, Except.bind, hty, pure, Except.pure]

theorem scanFacet_ok (facet : J) (h : shapedFacet facet = true)
    (acc : List J × List J) : ∃ acc', scanFacet acc facet = .ok acc' := by
  rw [shapedFacet, Bool.and_eq_true, Bool.and_eq_true] at h
  obtain ⟨hobj, harr, hall⟩ := h
  unfold scanFacet
  rw [pyGet_obj facet hobj]
  have hiter : pyIter (objGetD facet (.str "features") (.arr [])) =
      .ok (elemsOf (objGetD facet (.str "features") (.arr []))) := by
    rcases hf : objGetD facet (.str "features") (.arr []) with _ | _ | _ | _ | xs | _ <;>
      simp_all [isArrB, pyIter, elemsOf]
  simp only [bind, Except.bind, hiter]
  exact foldlM_ok scanFeature
    (elemsOf (objGetD facet (.str "features") (.arr [])))
    (fun a ha b => scanFeature_ok a (by
      rw [List.all_eq_true] at hall
      exact hall a ha) b) acc

theorem setAdd_ok (s : List J) (v : J) (hh : v.hashable = true) :
    setAdd s v = .ok (if s.contains v then s else s ++ [v]) := by
  simp [setAdd, hh]

theorem bind_ok_intro {α β : Type} (e : Except PyErr α) (f : α → Except PyErr β)
    (a : α) (he : e = .ok a) (hf : ∃ b, f a = .ok b) :
    ∃ b, (e >>= f) = .ok b := by
  rcases hf with ⟨b, hb⟩
  exact ⟨b, by rw [he]; simpa [bind, Except.bind] using hb⟩

theorem pyIter_arr (o : J) (ho : isArrB o = true) :
    pyIter o = .ok (elemsOf o) := by
  cases o <;> simp_all [isArrB, pyIter, elemsOf]

theorem quoteScan_ok (c_record : J) (hcrec : isObjB c_record = true)
    (hembed : isObjB (objGetD c_record (.str "embed") (.obj [])) = true)
    (hqif : (if objGetD (objGetD c_record (.str "embed") (.obj [])) (.str "$type") .null =
          .str "app.bsky.embed.record"
        then
          isObjB (objGetD (objGetD c_record (.str "embed") (.obj []))
            (.str "record") (.obj [])) &&
          addSafe (objGetD (objGetD (objGetD c_record (.str "embed") (.obj []))
            (.str "record") (.obj [])) (.str "uri") .null)
        else true) = true)
    (us : List J) : ∃ p, quoteScan us c_record = .ok p := by
  unfold quoteScan
  refine bind_ok_intro _ _ _ (pyGet_obj _ hcrec _ _) ?_
  refine bind_ok_intro _ _ _ (pyGet_obj _ hembed _ _) ?_
  by_cases hty : objGetD (objGetD c_record (.str "embed") (.obj [])) (.str "$type") .null =
      .str "app.bsky.embed.record"
  · rw [if_pos hty, Bool.and_eq_true] at hqif
    obtain ⟨herec, hqadd⟩ := hqif
    rw [if_pos hty]
    refine bind_ok_intro _ _ _ (pyGet_obj _ hembed _ _) ?_
    refine bind_ok_intro _ _ _ (pyGet_obj _ herec _ _) ?_
    by_cases htq : (objGetD (objGetD (objGetD c_record (.str "embed") (.obj []))
        (.str "record") (.obj [])) (.str "uri") .null).truthy = true
    · have hh : (objGetD (objGetD (objGetD c_record (.str "embed") (.obj []))
          (.str "record") (.obj [])) (.str "uri") .null).hashable = true := by
        rcases Bool.or_eq_true_iff.mp hqadd with hx | hx
        · rw [htq] at hx; simp at hx
        · exact hx
      rw [if_pos htq]
      refine bind_ok_intro _ _ _ (setAdd_ok us _ hh) ?_
      exact ⟨_, rfl⟩
    · rw [if_neg htq]
      exact ⟨_, rfl⟩
  · rw [if_neg hty]
    exact ⟨_, rfl⟩

theorem replyScan_ok (c_record : J) (hcrec : isObjB c_record = true)
    (hreply : isObjB (objGetD c_record (.str "reply") (.obj [])) = true)
    (hpar : isObjB (objGetD (objGetD c_record (.str "reply") (.obj []))
      (.str "parent") (.obj [])) = true)
    (hpadd : addSafe (objGetD (objGetD (objGetD c_record (.str "reply") (.obj []))
      (.str "parent") (.obj [])) (.str "uri") .null) = true)
    (hrt : isObjB (objGetD (objGetD c_record (.str "reply") (.obj []))
      (.str "root") (.obj [])) = true)
    (hradd : addSafe (objGetD (objGetD (objGetD c_record (.str "reply") (.obj []))
      (.str "root") (.obj [])) (.str "uri") .null) = true)
    (us : List J) : ∃ p, replyScan us c_record = .ok p := by
  unfold replyScan
  refine bind_ok_intro _ _ _ (pyGet_obj _ hcrec _ _) ?_
  refine bind_ok_intro _ _ _ (pyGet_obj _ hreply _ _) ?_
  refine bind_ok_intro _ _ _ (pyGet_obj _ hpar _ _) ?_
  obtain ⟨s1, hs1⟩ := guarded_setAdd_ok us _ hpadd
  refine bind_ok_intro _ _ _ hs1 ?_
  refine bind_ok_intro _ _ _ (pyGet_obj _ hreply _ _) ?_
  refine bind_ok_intro _ _ _ (pyGet_obj _ hrt _ _) ?_
  exact guarded_setAdd_ok s1 _ hradd

/-- A well-shaped record never makes one phase-1 iteration raise. -/
theorem collectRefsStep_ok (rec : J) (h : shapedRecord rec = true) (acc : RefAcc) :
    ∃ acc', collectRefsStep acc rec = .ok acc' := by
  rw [shapedRecord] at h
  simp only [Bool.and_eq_true] at h
  have hrec := h.1.1
  have hdid := h.1.2
  have hcommit := h.2.1
  have hcrec := h.2.2.1
  have hembed := h.2.2.2.1.1.1
  have hqif := h.2.2.2.1.1.2
  have hfarr := h.2.2.2.1.2.1
  have hfall := h.2.2.2.1.2.2
  have hreply := h.2.2.2.2.1.1
  have hpar := h.2.2.2.2.1.2.1
  have hpadd := h.2.2.2.2.1.2.2
  have hrt := h.2.2.2.2.2.1
  have hradd := h.2.2.2.2.2.2
  unfold collectRefsStep
  refine bind_ok_intro _ _ _ (pyGet_obj rec hrec _ _) ?_
  obtain ⟨s1, hs1⟩ := guarded_setAdd_ok acc.all_dids _ hdid
  refine bind_ok_intro _ _ _ hs1 ?_
  refine bind_ok_intro _ _ _ (pyGet_obj rec hrec _ _) ?_
  refine bind_ok_intro _ _ _ (pyGet_obj _ hcommit _ _) ?_
  obtain ⟨q1, hq1⟩ := quoteScan_ok (crecOf rec) hcrec hembed hqif acc.all_uris
  refine bind_ok_intro _ _ _ hq1 ?_
  refine bind_ok_intro _ _ _ (pyGet_obj _ hcrec _ _) ?_
  refine bind_ok_intro _ _ _ (pyIter_arr _ hfarr) ?_
  obtain ⟨m1, hm1⟩ := foldlM_ok scanFacet
    (elemsOf (objGetD (crecOf rec) (.str "facets") (.arr [])))
    (fun a ha b => scanFacet_ok a (by
      rw [List.all_eq_true] at hfall
      exact hfall a ha) b) ([], acc.mention_dids_global)
  refine bind_ok_intro _ _ _ hm1 ?_
  obtain ⟨r1, hr1⟩ := replyScan_ok (crecOf rec) hcrec hreply hpar hpadd hrt hradd q1.1
  refine bind_ok_intro _ _ _ hr1 ?_
  exact ⟨_, rfl⟩

theorem bind_ok_elim {α β : Type} {e : Except PyErr α} {f : α → Except PyErr β}
    {b : β} (h : (e >>= f) = .ok b) : ∃ a, e = .ok a ∧ f a = .ok b := by
  rcases e with err | a
  · simp [bind, Except.bind] at h
  · exact ⟨a, rfl, by simpa [bind, Except.bind] using h⟩

/-- Each phase-1 iteration appends exactly one entry to
`record_mentions_map` and one to `record_embed_map`. -/
theorem collectRefsStep_lengths (acc : RefAcc) (rec : J) (acc' : RefAcc)
    (h : collectRefsStep acc rec = .ok acc') :
    acc'.record_mentions_map.length = acc.record_mentions_map.length + 1 ∧
    acc'.record_embed_map.length = acc.record_embed_map.length + 1 := by
  unfold collectRefsStep at h
  obtain ⟨did, -, h⟩ := bind_ok_elim h
  obtain ⟨ad, -, h⟩ := bind_ok_elim h
  obtain ⟨cm, -, h⟩ := bind_ok_elim h
  obtain ⟨cr, -, h⟩ := bind_ok_elim h
  obtain ⟨qt, -, h⟩ := bind_ok_elim h
  obtain ⟨fc, -, h⟩ := bind_ok_elim h
  obtain ⟨fl, -, h⟩ := bind_ok_elim h
  obtain ⟨mr, -, h⟩ := bind_ok_elim h
  obtain ⟨au, -, h⟩ := bind_ok_elim h
  simp only [pure, Except.pure, Except.ok.injEq] at h
  rw [← h]
  simp

theorem collectRefs_go_lengths (records : List J) : ∀ (acc acc' : RefAcc),
    records.foldlM collectRefsStep acc = .ok acc' →
    acc'.record_mentions_map.length = acc.record_mentions_map.length + records.length ∧
    acc'.record_embed_map.length = acc.record_embed_map.length + records.length := by
  induction records with
  | nil =>
    intro acc acc' h
    simp only [List.foldlM, pure, Except.pure, Except.ok.injEq] at h
    rw [← h]
    simp
  | cons r rs ih =>
    intro acc acc' h
    rw [List.foldlM] at h
    obtain ⟨a1, h1, h2⟩ := bind_ok_elim h
    obtain ⟨l1, l2⟩ := collectRefsStep_lengths acc r a1 h1
    obtain ⟨m1, m2⟩ := ih a1 acc' h2
    simp only [List.length_cons]
    omega

/-- `collectRefs` produces per-index maps of the batch's length. -/
theorem collectRefs_lengths (records : List J) (acc : RefAcc)
    (h : collectRefs records = .ok acc) :
    acc.record_mentions_map.length = records.length ∧
    acc.record_embed_map.length = records.length := by
  have := collectRefs_go_lengths records ⟨[], [], [], [], []⟩ acc h
  simpa using this

/-- C7 counterexample: a record whose `commit` is present but `null` is
claimed to be treated as absent, but the source evaluates
`None.get("record", {})` and raises `AttributeError`, failing the whole
batch. -/
theorem C7_extractor_counterexample :
    collectRefs [J.obj [(J.str "commit", J.null)]] = .error .attributeError := rfl

/-- C7 (amended): the phase-1 extraction never raises on records whose
*absent* intermediate nodes are simply skipped and whose *present*
intermediate nodes are well-typed (every node `.get` is called on is a
dict, `facets`/`features` are lists, reference values are hashable when
truthy); a present-but-null or wrong-typed intermediate node instead
raises and fails the batch. -/
theorem C7_extractor_total (records : List J)
    (h : records.all shapedRecord = true) :
    ∃ acc, collectRefs records = .ok acc ∧
      acc.record_mentions_map.length = records.length ∧
      acc.record_embed_map.length = records.length := by
  obtain ⟨acc, hacc⟩ := foldlM_ok collectRefsStep records
    (fun a ha b => collectRefsStep_ok a (by
      rw [List.all_eq_true] at h
      exact h a ha) b)
    ⟨[], [], [], [], []⟩
  exact ⟨acc, hacc, collectRefs_lengths records acc hacc⟩

/-- Witness for the amended C7 on a one-record batch. -/
theorem C7_extractor_total_witness :
    ([J.obj [(J.str "did", J.str "D1")]].all shapedRecord = true) ∧
    ∃ acc, collectRefs [J.obj [(J.str "did", J.str "D1")]] = .ok acc ∧
      acc.record_mentions_map.length = 1 ∧ acc.record_embed_map.length = 1 :=
  ⟨by decide, C7_extractor_total _ (by decide)⟩

/-! ## C2: output shape of `hydrate_bulk` -/

/-- The field list of a dict value (empty for non-dicts). -/
def fieldsOf : J → List (J × J)
  | .obj fs => fs
  | _ => []

/-- A successful `assembleOne` returns a dict whose `message` field is
the untouched input record. -/
theorem assembleOne_message (dp up : List (J × J)) (rec : J) (m : List J)
    (e : Option J) (o : J) (h : assembleOne dp up rec m e = .ok o) :
    dictFind (fieldsOf o) (.str "message") = some rec := by
  unfold assembleOne at h
  obtain ⟨commit, -, h⟩ := bind_ok_elim h
  obtain ⟨crec, -, h⟩ := bind_ok_elim h
  obtain ⟨did, -, h⟩ := bind_ok_elim h
  obtain ⟨coll, -, h⟩ := bind_ok_elim h
  obtain ⟨rk, -, h⟩ := bind_ok_elim h
  obtain ⟨tu, -, h⟩ := bind_ok_elim h
  obtain ⟨rp, -, h⟩ := bind_ok_elim h
  obtain ⟨pn, -, h⟩ := bind_ok_elim h
  obtain ⟨pu, -, h⟩ := bind_ok_elim h
  obtain ⟨rn, -, h⟩ := bind_ok_elim h
  obtain ⟨ru, -, h⟩ := bind_ok_elim h
  simp only [pure, Except.pure, Except.ok.injEq] at h
  rw [← h]
  simp [fieldsOf, dictFind]

/-- A successful phase-5 assembly yields one output per input record, in
input order, each output built by `assembleOne` from the record at its
index and the per-index mention/embed entries. -/
theorem assemble_spec (dp up : List (J × J)) :
    ∀ (records : List J) (ms : List (List J)) (es : List (Option J)) (out : List J),
    assemble dp up records ms es = .ok out →
    out.length = records.length ∧
    (∀ i (hi : i < out.length) (hj : i < records.length),
      assembleOne dp up (records.get ⟨i, hj⟩) ((ms.drop i).headD [])
        ((es.drop i).headD none) = .ok (out.get ⟨i, hi⟩)) := by
  intro records
  induction records with
  | nil =>
    intro ms es out h
    simp only [assemble, Except.ok.injEq] at h
    rw [← h]
    exact ⟨rfl, fun i hi hj => absurd hj (by simp)⟩
  | cons r rest ih =>
    intro ms es out h
    rw [assemble] at h
    obtain ⟨one, hone, h⟩ := bind_ok_elim h
    obtain ⟨tail, htail, h⟩ := bind_ok_elim h
    simp only [pure, Except.pure, Except.ok.injEq] at h
    obtain ⟨hlen, hidx⟩ := ih ms.tail es.tail tail htail
    rw [← h]
    constructor
    · simp [hlen]
    · intro i hi hj
      match i with
      | 0 => simpa using hone
      | Nat.succ i =>
        simp only [List.length_cons, Nat.succ_lt_succ_iff] at hi hj
        have hdms : ms.drop (i + 1) = ms.tail.drop i := by cases ms <;> simp
        have hdes : es.drop (i + 1) = es.tail.drop i := by cases es <;> simp
        rw [hdms, hdes]
        simpa using hidx i (by simpa using hi) (by simpa using hj)

/-- Anatomy of a successful `hydrate_bulk` run: every phase succeeded,
and the final caches and output are the composition of the phases. -/
theorem hydrate_bulk_ok_elim (st : Caches) (records : List J) (api : ApiOracle)
    (out : List J) (h : (hydrate_bulk st records api).2 = .ok out) :
    ∃ acc ad md u1 mu p1 fu fp dp u3 up p3,
      collectRefs records = .ok acc ∧
      setUnion acc.all_dids acc.mention_dids_global = .ok ad ∧
      probeMissing st.user ad = (md, u1) ∧
      probeMissing st.post acc.all_uris = (mu, p1) ∧
      (if md.isEmpty then .ok [] else get_user_data_for_dids api md) = .ok fu ∧
      (if mu.isEmpty then .ok [] else hydrate_records_for_uris api mu) = .ok fp ∧
      readback (publishFetched ⟨u1, p1⟩ fu fp).user ad = (dp, u3) ∧
      readback (publishFetched ⟨u1, p1⟩ fu fp).post acc.all_uris = (up, p3) ∧
      assemble dp up records acc.record_mentions_map acc.record_embed_map = .ok out ∧
      hydrate_bulk st records api = (⟨u3, p3⟩, .ok out) := by
  unfold hydrate_bulk at h
  rcases hacc : collectRefs records with e | acc <;> rw [hacc] at h
  · simp at h
  try dsimp only at h
  rcases had : setUnion acc.all_dids acc.mention_dids_global with e | ad <;>
    rw [had] at h
  · simp at h
  try dsimp only at h
  rcases hpm1 : probeMissing st.user ad with ⟨md, u1⟩
  rw [hpm1] at h
  try dsimp only at h
  rcases hpm2 : probeMissing st.post acc.all_uris with ⟨mu, p1⟩
  rw [hpm2] at h
  try dsimp only at h
  rcases hfu : (if md.isEmpty then (.ok [] : Except PyErr (List (J × Profile)))
      else get_user_data_for_dids api md) with e | fu <;> rw [hfu] at h
  · simp at h
  try dsimp only at h
  rcases hfp : (if mu.isEmpty then (.ok [] : Except PyErr (List (J × PostView)))
      else hydrate_records_for_uris api mu) with e | fp <;> rw [hfp] at h
  · simp at h
  try dsimp only at h
  rcases hrb1 : readback (publishFetched ⟨u1, p1⟩ fu fp).user ad with ⟨dp, u3⟩
  rw [hrb1] at h
  try dsimp only at h
  rcases hrb2 : readback (publishFetched ⟨u1, p1⟩ fu fp).post acc.all_uris with ⟨up, p3⟩
  rw [hrb2] at h
  try dsimp only at h
  rcases hassemble : assemble dp up records acc.record_mentions_map
      acc.record_embed_map with e | out' <;> rw [hassemble] at h
  · simp at h
  try dsimp only at h
  have hout : out' = out := by simpa using h
  subst hout
  refine ⟨acc, ad, md, u1, mu, p1, fu, fp, dp, u3, up, p3,
    ?_, ?_, ?_, ?_, ?_, ?_, ?_, ?_, ?_, ?_⟩
  · first | exact hacc | rfl
  · first | exact had | rfl
  · first | exact hpm1 | rfl
  · first | exact hpm2 | rfl
  · first | exact hfu | rfl
  · first | exact hfp | rfl
  · first | exact hrb1 | rfl
  · first | exact hrb2 | rfl
  · first | exact hassemble | rfl
  · unfold hydrate_bulk
    simp only [hacc, had, hpm1, hpm2, hfu, hfp, hrb1, hrb2, hassemble]

/-- C2: whenever `hydrate_bulk` returns, it returns exactly one enriched
record per input event, in input order, and the `message` field of the
i-th output is identically the i-th input record. -/
theorem C2_hydrate_output (st : Caches) (records : List J) (api : ApiOracle)
    (out : List J) (h : (hydrate_bulk st records api).2 = .ok out) :
    out.length = records.length ∧
    (∀ i (hi : i < out.length) (hj : i < records.length),
      dictFind (fieldsOf (out.get ⟨i, hi⟩)) (.str "message") =
        some (records.get ⟨i, hj⟩)) := by
  obtain ⟨acc, ad, md, u1, mu, p1, fu, fp, dp, u3, up, p3,
    -, -, -, -, -, -, -, -, hassemble, -⟩ :=
    hydrate_bulk_ok_elim st records api out h
  obtain ⟨hlen, hidx⟩ := assemble_spec _ _ records _ _ _ hassemble
  exact ⟨hlen, fun i hi hj =>
    assembleOne_message dp up _ _ _ _ (hidx i hi hj)⟩

/-- Witness for C2 on a one-record batch against an empty-response
remote. -/
theorem C2_hydrate_output_witness :
    ((hydrate_bulk ⟨LRUCache.empty 3, LRUCache.empty 3⟩
        [J.obj [(J.str "did", J.str "D1")]]
        ⟨fun _ => .ok [], fun _ => .ok []⟩).2 =
      .ok [J.obj [(J.str "at_uri", J.str ""),
                  (J.str "did", J.str "D1"),
                  (J.str "time_us", J.null),
                  (J.str "message", J.obj [(J.str "did", J.str "D1")]),
                  (J.str "hydrated_metadata", J.obj
                    [(J.str "user", J.null),
                     (J.str "mentions", J.obj []),
                     (J.str "parent_post", J.null),
                     (J.str "reply_post", J.null),
                     (J.str "quote_post", J.null)])]]) ∧
    [J.obj [(J.str "at_uri", J.str ""),
            (J.str "did", J.str "D1"),
            (J.str "time_us", J.null),
            (J.str "message", J.obj [(J.str "did", J.str "D1")]),
            (J.str "hydrated_metadata", J.obj
              [(J.str "user", J.null),
               (J.str "mentions", J.obj []),
               (J.str "parent_post", J.null),
               (J.str "reply_post", J.null),
               (J.str "quote_post", J.null)])]].length =
      [J.obj [(J.str "did", J.str "D1")]].length :=
  ⟨rfl, (C2_hydrate_output ⟨LRUCache.empty 3, LRUCache.empty 3⟩
    [J.obj [(J.str "did", J.str "D1")]] ⟨fun _ => .ok [], fun _ => .ok []⟩ _ rfl).1⟩

/-! ## C8 and C9: `time_us` and `at_uri` in the enriched record -/

/-- A remote oracle that resolves every requested key to an echo object,
used to evaluate concrete hydration runs. -/
def echoApi : ApiOracle :=
  ⟨fun sub => .ok (sub.map (fun d => ⟨d, .obj [(.str "did", d)]⟩)),
   fun sub => .ok (sub.map (fun u => ⟨u, .obj [(.str "uri", u)]⟩))⟩

/-- An event with a top-level `time_us` and none under `commit.record`. -/
def c8_event : J := .obj
  [(.str "did", .str "D1"),
   (.str "time_us", .int 5),
   (.str "commit", .obj
     [(.str "collection", .str "c"),
      (.str "rkey", .str "r"),
      (.str "record", .obj [])])]

/-- The enriched record the code produces for `c8_event`. -/
def c8_out : J := .obj
  [(.str "at_uri", .str "at://D1/c/r"),
   (.str "did", .str "D1"),
   (.str "time_us", .null),
   (.str "message", c8_event),
   (.str "hydrated_metadata", .obj
     [(.str "user", .obj [(.str "did", .str "D1")]),
      (.str "mentions", .obj []),
      (.str "parent_post", .null),
      (.str "reply_post", .null),
      (.str "quote_post", .null)])]

/-- C8 (code bug): the enriched `time_us` is read from
`commit.record.time_us` (`c_record.get("time_us")` in phase 5), not from
the top-level `time_us` field that the shard filter reads.  On an event
carrying `time_us = 5` at the top level only — where every real
jetstream event carries it — the shard filter sees `5` but the enriched
record's `time_us` is `null`, so the field is never the claimed
pass-through. -/
theorem C8_time_us_not_passed_through :
    pyGet c8_event (.str "time_us") .null = .ok (.int 5) ∧
    shardKeep (some 1) (some 0) c8_event = .ok true ∧
    (hydrate_bulk ⟨LRUCache.empty 20000, LRUCache.empty 20000⟩
        [c8_event] echoApi).2 = .ok [c8_out] ∧
    dictFind (fieldsOf c8_out) (.str "time_us") = some J.null :=
  ⟨rfl, rfl, rfl, rfl⟩

/-- A successful `assembleOne` leaves `at_uri` as the f-string over
`did`, `commit.collection`, `commit.rkey` when all three are truthy and
the empty string otherwise. -/
theorem assembleOne_at_uri (dp up : List (J × J)) (rec : J) (m : List J)
    (e : Option J) (o : J) (h : assembleOne dp up rec m e = .ok o) :
    ∃ commit did coll rk,
      pyGet rec (.str "commit") (.obj []) = .ok commit ∧
      pyGet rec (.str "did") (.str "") = .ok did ∧
      pyGet commit (.str "collection") (.str "") = .ok coll ∧
      pyGet commit (.str "rkey") (.str "") = .ok rk ∧
      dictFind (fieldsOf o) (.str "at_uri") =
        some (.str (if did.truthy && coll.truthy && rk.truthy
          then "at://" ++ pyStr did ++ "/" ++ pyStr coll ++ "/" ++ pyStr rk
          else "")) := by
  unfold assembleOne at h
  obtain ⟨commit, hcm, h⟩ := bind_ok_elim h
  obtain ⟨crec, -, h⟩ := bind_ok_elim h
  obtain ⟨did, hd, h⟩ := bind_ok_elim h
  obtain ⟨coll, hcl, h⟩ := bind_ok_elim h
  obtain ⟨rk, hrk, h⟩ := bind_ok_elim h
  obtain ⟨tu, -, h⟩ := bind_ok_elim h
  obtain ⟨rp, -, h⟩ := bind_ok_elim h
  obtain ⟨pn, -, h⟩ := bind_ok_elim h
  obtain ⟨pu, -, h⟩ := bind_ok_elim h
  obtain ⟨rn, -, h⟩ := bind_ok_elim h
  obtain ⟨ru, -, h⟩ := bind_ok_elim h
  simp only [pure, Except.pure, Except.ok.injEq] at h
  refine ⟨commit, did, coll, rk, hcm, hd, hcl, hrk, ?_⟩
  rw [← h]
  simp [fieldsOf, dictFind]

theorem at_uri_ne_empty (d c r : String) :
    ("at://" ++ d ++ "/" ++ c ++ "/" ++ r) ≠ "" := by
  intro hcontra
  have hlen := congrArg String.length hcontra
  simp only [String.length_append] at hlen
  have h5 : ("at://" : String).length = 5 := rfl
  have h0 : ("" : String).length = 0 := rfl
  rw [h5, h0] at hlen
  omega

/-- An event whose `did` is the (truthy, non-string) integer 5. -/
def c9_event : J := .obj
  [(.str "did", .int 5),
   (.str "commit", .obj
     [(.str "collection", .str "c"),
      (.str "rkey", .str "r"),
      (.str "record", .obj [])])]

/-- The enriched record the code produces for `c9_event`. -/
def c9_out : J := .obj
  [(.str "at_uri", .str "at://5/c/r"),
   (.str "did", .int 5),
   (.str "time_us", .null),
   (.str "message", c9_event),
   (.str "hydrated_metadata", .obj
     [(.str "user", .obj [(.str "did", .int 5)]),
      (.str "mentions", .obj []),
      (.str "parent_post", .null),
      (.str "reply_post", .null),
      (.str "quote_post", .null)])]

/-- C9 counterexample: the claim says `at_uri` is the empty string
unless all three of `did`, `commit.collection`, `commit.rkey` are
non-empty strings, but the code tests Python truthiness: with
`did = 5` (an integer, not a string) the produced `at_uri` is
`"at://5/c/r"`, which is not empty. -/
theorem C9_at_uri_counterexample :
    (hydrate_bulk ⟨LRUCache.empty 20000, LRUCache.empty 20000⟩
        [c9_event] echoApi).2 = .ok [c9_out] ∧
    dictFind (fieldsOf c9_event) (.str "did") = some (.int 5) ∧
    dictFind (fieldsOf c9_out) (.str "at_uri") = some (.str "at://5/c/r") ∧
    J.str "at://5/c/r" ≠ J.str "" :=
  ⟨rfl, rfl, rfl, by decide⟩

/-- C9 (amended): for every enriched record, `at_uri` is
`"at://{did}/{collection}/{rkey}"` (components rendered by `str()`)
when `did`, `commit.collection` and `commit.rkey` are all *truthy* and
the empty string otherwise; in particular it is the claimed URI when
all three are non-empty strings, and it is empty iff some component is
falsy. -/
theorem C9_at_uri (st : Caches) (records : List J) (api : ApiOracle)
    (out : List J) (h : (hydrate_bulk st records api).2 = .ok out)
    (i : Nat) (hi : i < out.length) (hj : i < records.length) :
    ∃ commit did coll rk,
      pyGet (records.get ⟨i, hj⟩) (.str "commit") (.obj []) = .ok commit ∧
      pyGet (records.get ⟨i, hj⟩) (.str "did") (.str "") = .ok did ∧
      pyGet commit (.str "collection") (.str "") = .ok coll ∧
      pyGet commit (.str "rkey") (.str "") = .ok rk ∧
      dictFind (fieldsOf (out.get ⟨i, hi⟩)) (.str "at_uri") =
        some (.str (if did.truthy && coll.truthy && rk.truthy
          then "at://" ++ pyStr did ++ "/" ++ pyStr coll ++ "/" ++ pyStr rk
          else "")) ∧
      (∀ ds cs rs : String, did = .str ds → coll = .str cs → rk = .str rs →
        ds ≠ "" → cs ≠ "" → rs ≠ "" →
        dictFind (fieldsOf (out.get ⟨i, hi⟩)) (.str "at_uri") =
          some (.str ("at://" ++ ds ++ "/" ++ cs ++ "/" ++ rs))) ∧
      (dictFind (fieldsOf (out.get ⟨i, hi⟩)) (.str "at_uri") = some (.str "") ↔
        ¬(did.truthy = true ∧ coll.truthy = true ∧ rk.truthy = true)) := by
  obtain ⟨acc, ad, md, u1, mu, p1, fu, fp, dp, u3, up, p3,
    -, -, -, -, -, -, -, -, hassemble, -⟩ :=
    hydrate_bulk_ok_elim st records api out h
  obtain ⟨hlen, hidx⟩ := assemble_spec _ _ records _ _ _ hassemble
  obtain ⟨commit, did, coll, rk, hcm, hd, hcl, hrk, hat⟩ :=
    assembleOne_at_uri dp up _ _ _ _ (hidx i hi hj)
  refine ⟨commit, did, coll, rk, hcm, hd, hcl, hrk, hat, ?_, ?_⟩
  · intro ds cs rs hds hcs hrs hne1 hne2 hne3
    subst hds hcs hrs
    rw [hat]
    simp [J.truthy, pyStr, hne1, hne2, hne3]
  · rw [hat]
    by_cases ht : (did.truthy && coll.truthy && rk.truthy) = true
    · rw [ht]
      simp only [if_true, Option.some.injEq, J.str.injEq]
      constructor
      · intro hcontra
        exact absurd hcontra (at_uri_ne_empty (pyStr did) (pyStr coll) (pyStr rk))
      · intro hcontra
        rw [Bool.and_eq_true, Bool.and_eq_true] at ht
        exact absurd ⟨ht.1.1, ht.1.2, ht.2⟩ hcontra
    · rw [if_neg ht]
      simp only [Option.some.injEq, J.str.injEq, true_iff]
      intro hcontra
      rw [Bool.and_eq_true, Bool.and_eq_true] at ht
      exact ht ⟨⟨hcontra.1, hcontra.2.1⟩, hcontra.2.2⟩

/-- Witness for the amended C9 at the concrete `c8_event` run. -/
theorem C9_at_uri_witness :
    ∃ commit did coll rk,
      pyGet c8_event (.str "commit") (.obj []) = .ok commit ∧
      pyGet c8_event (.str "did") (.str "") = .ok did ∧
      pyGet commit (.str "collection") (.str "") = .ok coll ∧
      pyGet commit (.str "rkey") (.str "") = .ok rk ∧
      dictFind (fieldsOf c8_out) (.str "at_uri") =
        some (.str (if did.truthy && coll.truthy && rk.truthy
          then "at://" ++ pyStr did ++ "/" ++ pyStr coll ++ "/" ++ pyStr rk
          else "")) ∧
      (∀ ds cs rs : String, did = .str ds → coll = .str cs → rk = .str rs →
        ds ≠ "" → cs ≠ "" → rs ≠ "" →
        dictFind (fieldsOf c8_out) (.str "at_uri") =
          some (.str ("at://" ++ ds ++ "/" ++ cs ++ "/" ++ rs))) ∧
      (dictFind (fieldsOf c8_out) (.str "at_uri") = some (.str "") ↔
        ¬(did.truthy = true ∧ coll.truthy = true ∧ rk.truthy = true)) := by
  have h := C9_at_uri ⟨LRUCache.empty 20000, LRUCache.empty 20000⟩
    [c8_event] echoApi [c8_out] rfl 0 (by decide) (by decide)
  simpa using h

/-! ## C4: cache population after a successful hydration -/

/-- A `set` that cannot evict (key already present, or room left)
preserves well-formedness, capacity, presence of every key, and adds the
new key, growing by at most one entry. -/
theorem lru_set_noevict (c : LRUCache) (hwf : c.WF) (k v : J)
    (hroom : (dictFind c.cache k).isSome ∨ c.cache.length < c.max_size) :
    (c.set k v).WF ∧ (c.set k v).max_size = c.max_size ∧
    (c.set k v).cache.length ≤ c.cache.length + 1 ∧
    (∀ k', (dictFind c.cache k').isSome → (dictFind (c.set k v).cache k').isSome) ∧
    (dictFind (c.set k v).cache k).isSome := by
  have hself : (dictFind (c.set k v).cache k).isSome := by
    rw [lru_set_find_self c hwf k v]; rfl
  have hother : ∀ k', (dictFind c.cache k').isSome →
      (dictFind (c.set k v).cache k').isSome := by
    intro k' hk'
    by_cases hkk : k' = k
    · subst hkk; exact hself
    · rw [lru_set_find_other c k v k' hkk hroom]; exact hk'
  rcases hfind : dictFind c.cache k with _ | w
  · have hlen : c.cache.length < c.max_size := by
      rcases hroom with hs | hs
      · rw [hfind] at hs; simp at hs
      · exact hs
    have hwf' : (c.set k v).WF := by
      rw [lru_set_new_notfull c k v hfind hlen]
      constructor
      · simp only [List.map_append, List.map_cons, List.map_nil]
        rw [List.nodup_append]
        exact ⟨hwf.1, List.nodup_singleton k, fun a ha => by
          simp only [List.mem_singleton]
          intro hak
          subst hak
          exact ((dictFind_eq_none_iff _ _).mp hfind) ha⟩
      · simp only [List.length_append, List.length_cons, List.length_nil]
        omega
    have hlen' : (c.set k v).cache.length ≤ c.cache.length + 1 := by
      rw [lru_set_new_notfull c k v hfind hlen]
      simp
    exact ⟨hwf', lru_set_max c k v, hlen', hother, hself⟩
  · have hsome : (dictFind c.cache k).isSome := by simp [hfind]
    have hmem : k ∈ c.cache.map Prod.fst := (dictFind_isSome_iff _ _).mp hsome
    have hpos : 0 < c.cache.length := by
      rcases hc : c.cache with _ | ⟨x, xs⟩
      · rw [hc] at hmem; simp at hmem
      · simp [hc]
    have hcap : 1 ≤ c.max_size := le_trans hpos hwf.2
    refine ⟨lru_wf_set c hwf hcap k v, lru_set_max c k v, ?_, hother, hself⟩
    rw [lru_set_length_present c k v hsome]
    omega

/-- Folding `set` over a list of entries that fits in the remaining
capacity never evicts: well-formedness and capacity are preserved, the
size grows by at most the number of entries, every previously present
key stays present, and every written key is present. -/
theorem lru_fold_set_spec :
    ∀ (items : List (J × J)) (c : LRUCache), c.WF →
    c.cache.length + items.length ≤ c.max_size →
    (items.foldl (fun a kv => a.set kv.1 kv.2) c).WF ∧
    (items.foldl (fun a kv => a.set kv.1 kv.2) c).max_size = c.max_size ∧
    (items.foldl (fun a kv => a.set kv.1 kv.2) c).cache.length ≤
      c.cache.length + items.length ∧
    (∀ k, (dictFind c.cache k).isSome →
      (dictFind (items.foldl (fun a kv => a.set kv.1 kv.2) c).cache k).isSome) ∧
    (∀ kv ∈ items,
      (dictFind (items.foldl (fun a kv => a.set kv.1 kv.2) c).cache kv.1).isSome) := by
  intro items
  induction items with
  | nil =>
    intro c hwf hcap
    exact ⟨hwf, rfl, by simp, fun k hk => hk, by simp⟩
  | cons kv rest ih =>
    intro c hwf hcap
    simp only [List.length_cons] at hcap
    have hroom : (dictFind c.cache kv.1).isSome ∨ c.cache.length < c.max_size :=
      Or.inr (by omega)
    obtain ⟨hwf1, hmax1, hlen1, hpres1, hself1⟩ :=
      lru_set_noevict c hwf kv.1 kv.2 hroom
    have hcap1 : (c.set kv.1 kv.2).cache.length + rest.length ≤
        (c.set kv.1 kv.2).max_size := by
      rw [hmax1]; omega
    obtain ⟨hwf2, hmax2, hlen2, hpres2, hall2⟩ := ih (c.set kv.1 kv.2) hwf1 hcap1
    simp only [List.foldl_cons]
    refine ⟨hwf2, hmax2.trans hmax1, by simp only [List.length_cons]; omega, ?_, ?_⟩
    · intro k hk
      exact hpres2 k (hpres1 k hk)
    · intro kv' hkv'
      rcases List.mem_cons.mp hkv' with hh | hh
      · subst hh
        exact hpres2 kv'.1 hself1
      · exact hall2 kv' hh

/-- The phase-4 readback promotes but never changes a mapping, never
evicts, and its dict is the value-or-`None` table of the cache. -/
theorem readback_spec (keys : List J) : ∀ (c : LRUCache), c.WF →
    (readback c keys).2.WF ∧
    (readback c keys).2.max_size = c.max_size ∧
    (∀ k, dictFind (readback c keys).2.cache k = dictFind c.cache k) ∧
    (readback c keys).1 = keys.map (fun k => (k, (dictFind c.cache k).getD .null)) := by
  induction keys with
  | nil =>
    intro c hwf
    exact ⟨hwf, rfl, fun k => rfl, rfl⟩
  | cons k rest ih =>
    intro c hwf
    have hwfg := lru_wf_get c hwf k
    have hfindg := lru_get_find c hwf k
    have hval : (c.get k).1 = (dictFind c.cache k).getD .null := lru_get_fst c k
    set c1 := (c.get k).2 with hc1
    set c2 := if (c.get k).1 ≠ .null then c1.set k (c.get k).1 else c1 with hc2
    have hwf2 : c2.WF ∧ c2.max_size = c.max_size ∧
        (∀ k', dictFind c2.cache k' = dictFind c.cache k') := by
      by_cases hnn : (c.get k).1 ≠ .null
      · have hfind1 : dictFind c1.cache k = some (c.get k).1 := by
          rw [hfindg k]
          rcases hf : dictFind c.cache k with _ | w
          · rw [hval, hf] at hnn
            simp at hnn
          · rw [hval, hf]
            rfl
        have hsome1 : (dictFind c1.cache k).isSome := by rw [hfind1]; rfl
        have hmem1 : k ∈ c1.cache.map Prod.fst := (dictFind_isSome_iff _ _).mp hsome1
        have hpos1 : 0 < c1.cache.length := by
          rcases hcc : c1.cache with _ | ⟨x, xs⟩
          · rw [hcc] at hmem1; simp at hmem1
          · simp [hcc]
        have hcap1 : 1 ≤ c1.max_size := le_trans hpos1 hwfg.2
        rw [hc2, if_pos hnn]
        refine ⟨lru_wf_set c1 hwfg hcap1 k (c.get k).1,
          (lru_set_max c1 k (c.get k).1).trans (lru_get_max c k), ?_⟩
        intro k'
        by_cases hkk : k' = k
        · subst hkk
          rw [lru_set_find_self c1 hwfg k' (c.get k').1, ← hfindg k', hfind1]
        · rw [lru_set_find_other c1 k (c.get k).1 k' hkk (Or.inl hsome1), hfindg k']
      · rw [hc2, if_neg hnn]
        exact ⟨hwfg, lru_get_max c k, hfindg⟩
    obtain ⟨hwf2', hmax2', hfind2'⟩ := hwf2
    obtain ⟨ihwf, ihmax, ihfind, ihlist⟩ := ih c2 hwf2'
    rw [readback]
    refine ⟨ihwf, ihmax.trans hmax2', ?_, ?_⟩
    · intro k'
      rw [ihfind k', hfind2' k']
    · simp only [List.map_cons]
      rw [ihlist]
      congr 1
      · rw [hval]
      · apply List.map_congr_left
        intro x _
        rw [hfind2' x]

/-- An event referencing posting DID `A` and mention DID `B`. -/
def c4_event : J := .obj
  [(.str "did", .str "A"),
   (.str "commit", .obj
     [(.str "record", .obj
       [(.str "facets", .arr [
           .obj [(.str "features", .arr [
             .obj [(.str "$type", .str "app.bsky.richtext.facet#mention"),
                   (.str "did", .str "B")]])]])])])]

/-- C4 counterexample: with a user cache of capacity 1, hydrating a
batch that references the two DIDs `A` and `B` — both returned by the
remote — leaves only `B` in the user cache: writing `B` evicts `A`, so
`A` is in the batch's reference set, was not omitted by the response,
and is still absent from the cache after the hydration.  The claim as
stated carries no capacity hypothesis and is therefore false. -/
theorem C4_cache_population_counterexample :
    setUnion [J.str "A"] [J.str "B"] = .ok [J.str "A", J.str "B"] ∧
    collectRefs [c4_event] =
      .ok ⟨[[J.str "B"]], [none], [J.str "A"], [], [J.str "B"]⟩ ∧
    get_user_data_for_dids echoApi [J.str "A", J.str "B"] =
      .ok [(J.str "A", ⟨J.str "A", J.obj [(J.str "did", J.str "A")]⟩),
           (J.str "B", ⟨J.str "B", J.obj [(J.str "did", J.str "B")]⟩)] ∧
    ((hydrate_bulk ⟨LRUCache.empty 1, LRUCache.empty 20000⟩
        [c4_event] echoApi).2).isOk = true ∧
    (hydrate_bulk ⟨LRUCache.empty 1, LRUCache.empty 20000⟩
        [c4_event] echoApi).1.user.cache =
      [(J.str "B", J.obj [(J.str "did", J.str "B")])] ∧
    dictFind ((hydrate_bulk ⟨LRUCache.empty 1, LRUCache.empty 20000⟩
        [c4_event] echoApi).1.user.cache) (J.str "A") = none :=
  ⟨rfl, rfl, rfl, rfl, rfl, rfl⟩

/-- C4 (amended): after a hydration in which both bulk fetches succeed
*and no eviction can occur during publication* (each cache has room for
its entries plus the newly fetched ones — always the case for the
default 20000-entry caches and ≤ 10-event batches), every DID in the
batch's reference set that was cached before or returned by the profile
response is in the final user cache, and symmetrically for URIs and
posts; hence a referenced key can only be absent when the remote
response omitted it (and it was not already cached). -/
theorem C4_cache_population (st : Caches) (hwfu : st.user.WF) (hwfp : st.post.WF)
    (records : List J) (api : ApiOracle)
    (acc : RefAcc) (ad md : List J) (u1 : LRUCache) (mu : List J) (p1 : LRUCache)
    (fu : List (J × Profile)) (fp : List (J × PostView))
    (dp : List (J × J)) (u3 : LRUCache) (up : List (J × J)) (p3 : LRUCache)
    (hacc : collectRefs records = .ok acc)
    (had : setUnion acc.all_dids acc.mention_dids_global = .ok ad)
    (hpm1 : probeMissing st.user ad = (md, u1))
    (hpm2 : probeMissing st.post acc.all_uris = (mu, p1))
    (hfu : (if md.isEmpty then .ok [] else get_user_data_for_dids api md) = .ok fu)
    (hfp : (if mu.isEmpty then .ok [] else hydrate_records_for_uris api mu) = .ok fp)
    (hrb1 : readback (publishFetched ⟨u1, p1⟩ fu fp).user ad = (dp, u3))
    (hrb2 : readback (publishFetched ⟨u1, p1⟩ fu fp).post acc.all_uris = (up, p3))
    (hcapu : st.user.cache.length + fu.length ≤ st.user.max_size)
    (hcapp : st.post.cache.length + fp.length ≤ st.post.max_size) :
    (∀ d, d ∈ ad →
      ((dictFind st.user.cache d).isSome ∨ d ∈ fu.map (fun kv => kv.2.did)) →
      (dictFind u3.cache d).isSome) ∧
    (∀ u, u ∈ acc.all_uris →
      ((dictFind st.post.cache u).isSome ∨ u ∈ fp.map (fun kv => kv.1)) →
      (dictFind p3.cache u).isSome) := by
  obtain ⟨hm1, hf1, hw1, hx1, hl1⟩ := probeMissing_spec ad st.user hwfu
  obtain ⟨hm2, hf2, hw2, hx2, hl2⟩ := probeMissing_spec acc.all_uris st.post hwfp
  rw [hpm1] at hf1 hw1 hx1 hl1
  rw [hpm2] at hf2 hw2 hx2 hl2
  simp only at hf1 hw1 hx1 hl1 hf2 hw2 hx2 hl2
  constructor
  · -- user cache
    have hfold : (publishFetched ⟨u1, p1⟩ fu fp).user =
        (fu.map (fun kv => (kv.2.did, kv.2.dump))).foldl
          (fun a kv => a.set kv.1 kv.2) u1 := by
      unfold publishFetched
      rw [List.foldl_map]
    have hcap1 : u1.cache.length +
        (fu.map (fun kv => (kv.2.did, kv.2.dump))).length ≤ u1.max_size := by
      rw [hl1, hx1, List.length_map]
      exact hcapu
    obtain ⟨hwfP, hmaxP, hlenP, hpresP, hallP⟩ :=
      lru_fold_set_spec (fu.map (fun kv => (kv.2.did, kv.2.dump))) u1 hw1 hcap1
    rw [← hfold] at hwfP hpresP hallP
    obtain ⟨-, -, hfindR, -⟩ :=
      readback_spec ad (publishFetched ⟨u1, p1⟩ fu fp).user hwfP
    rw [hrb1] at hfindR
    simp only at hfindR
    intro d hd hsrc
    rw [hfindR d]
    rcases hsrc with hs | hs
    · apply hpresP
      rw [hf1 d]
      exact hs
    · obtain ⟨kv, hkv, hkvd⟩ := List.mem_map.mp hs
      have := hallP (kv.2.did, kv.2.dump)
        (List.mem_map.mpr ⟨kv, hkv, rfl⟩)
      rw [← hkvd]
      exact this
  · -- post cache
    have hfold : (publishFetched ⟨u1, p1⟩ fu fp).post =
        (fp.map (fun kv => (kv.1, kv.2.dump))).foldl
          (fun a kv => a.set kv.1 kv.2) p1 := by
      unfold publishFetched
      rw [List.foldl_map]
    have hcap1 : p1.cache.length +
        (fp.map (fun kv => (kv.1, kv.2.dump))).length ≤ p1.max_size := by
      rw [hl2, hx2, List.length_map]
      exact hcapp
    obtain ⟨hwfP, hmaxP, hlenP, hpresP, hallP⟩ :=
      lru_fold_set_spec (fp.map (fun kv => (kv.1, kv.2.dump))) p1 hw2 hcap1
    rw [← hfold] at hwfP hpresP hallP
    obtain ⟨-, -, hfindR, -⟩ :=
      readback_spec acc.all_uris (publishFetched ⟨u1, p1⟩ fu fp).post hwfP
    rw [hrb2] at hfindR
    simp only at hfindR
    intro u hu hsrc
    rw [hfindR u]
    rcases hsrc with hs | hs
    · apply hpresP
      rw [hf2 u]
      exact hs
    · obtain ⟨kv, hkv, hkvd⟩ := List.mem_map.mp hs
      have := hallP (kv.1, kv.2.dump)
        (List.mem_map.mpr ⟨kv, hkv, rfl⟩)
      rw [← hkvd]
      exact this

/-- Witness for the amended C4: in the two-DID batch against a roomy
cache, the referenced and fetched DID `A` is in the final user cache. -/
theorem C4_cache_population_witness :
    (dictFind (⟨20000, [(J.str "A", J.obj [(J.str "did", J.str "A")]),
        (J.str "B", J.obj [(J.str "did", J.str "B")])]⟩ : LRUCache).cache
      (J.str "A")).isSome := by
  have h := C4_cache_population ⟨LRUCache.empty 20000, LRUCache.empty 20000⟩
    (lru_wf_empty 20000) (lru_wf_empty 20000) [c4_event] echoApi
    ⟨[[J.str "B"]], [none], [J.str "A"], [], [J.str "B"]⟩
    [J.str "A", J.str "B"] [J.str "A", J.str "B"] (LRUCache.empty 20000)
    [] (LRUCache.empty 20000)
    [(J.str "A", ⟨J.str "A", J.obj [(J.str "did", J.str "A")]⟩),
     (J.str "B", ⟨J.str "B", J.obj [(J.str "did", J.str "B")]⟩)] []
    [(J.str "A", J.obj [(J.str "did", J.str "A")]),
     (J.str "B", J.obj [(J.str "did", J.str "B")])]
    ⟨20000, [(J.str "A", J.obj [(J.str "did", J.str "A")]),
             (J.str "B", J.obj [(J.str "did", J.str "B")])]⟩
    [] (LRUCache.empty 20000)
    rfl rfl rfl rfl rfl rfl rfl rfl (by decide) (by decide)
  exact h.1 (J.str "A") (by decide) (Or.inr (by decide))

/-! ## C5: bulk-fetch failure -/

/-- C5: if either bulk fetch raises during a batch's hydration, the
hydration is abandoned with the propagated exception; both caches are
bit-for-bit the post-probe states (and the probe itself only promotes —
every mapping still equals the pre-hydration one); and the admission
permit acquired for the batch is released by the `finally`, so the
semaphore count is restored. -/
theorem C5_fetch_failure (sem : Nat) (hsem : 1 ≤ sem)
    (st : Caches) (hwfu : st.user.WF) (hwfp : st.post.WF)
    (batch : List J) (api : ApiOracle)
    (store : List J → Except PyErr Unit)
    (acc : RefAcc) (ad md : List J) (u1 : LRUCache) (mu : List J) (p1 : LRUCache)
    (hacc : collectRefs batch = .ok acc)
    (had : setUnion acc.all_dids acc.mention_dids_global = .ok ad)
    (hpm1 : probeMissing st.user ad = (md, u1))
    (hpm2 : probeMissing st.post acc.all_uris = (mu, p1))
    (herr : (∃ e, (if md.isEmpty then (.ok [] : Except PyErr (List (J × Profile)))
        else get_user_data_for_dids api md) = .error e) ∨
      (∃ e, (if mu.isEmpty then (.ok [] : Except PyErr (List (J × PostView)))
        else hydrate_records_for_uris api mu) = .error e)) :
    (∃ e, hydrate_bulk st batch api = (⟨u1, p1⟩, .error e) ∧
      process_batch sem st batch api store = (sem, ⟨u1, p1⟩, .error e)) ∧
    (∀ k, dictFind u1.cache k = dictFind st.user.cache k) ∧
    (∀ k, dictFind p1.cache k = dictFind st.post.cache k) := by
  have hmain : ∃ e, hydrate_bulk st batch api = (⟨u1, p1⟩, .error e) := by
    rcases hfu : (if md.isEmpty then (.ok [] : Except PyErr (List (J × Profile)))
        else get_user_data_for_dids api md) with eU | fu
    · refine ⟨eU, ?_⟩
      unfold hydrate_bulk
      simp only [hacc, had, hpm1, hpm2, hfu]
    · rcases herr with ⟨e, he⟩ | ⟨e, he⟩
      · rw [he] at hfu
        exact absurd hfu (by simp)
      · refine ⟨e, ?_⟩
        unfold hydrate_bulk
        simp only [hacc, had, hpm1, hpm2, hfu, he]
  obtain ⟨e, he⟩ := hmain
  obtain ⟨-, hfind1, -, -, -⟩ := probeMissing_spec ad st.user hwfu
  obtain ⟨-, hfind2, -, -, -⟩ := probeMissing_spec acc.all_uris st.post hwfp
  rw [hpm1] at hfind1
  rw [hpm2] at hfind2
  simp only at hfind1 hfind2
  refine ⟨⟨e, he, ?_⟩, hfind1, hfind2⟩
  unfold process_batch hydrate_and_release
  rw [he]
  simp only
  have : sem - 1 + 1 = sem := by omega
  rw [this]

/-- A remote oracle whose profile endpoint always raises. -/
def failApi : ApiOracle :=
  ⟨fun _ => .error .runtimeError, fun _ => .ok []⟩

/-- Witness for C5: a one-record batch against the failing oracle leaves
both (empty) caches untouched and restores the semaphore to 100. -/
theorem C5_fetch_failure_witness :
    ∃ e, hydrate_bulk ⟨LRUCache.empty 20000, LRUCache.empty 20000⟩
        [c8_event] failApi =
        (⟨LRUCache.empty 20000, LRUCache.empty 20000⟩, .error e) ∧
      process_batch 100 ⟨LRUCache.empty 20000, LRUCache.empty 20000⟩
        [c8_event] failApi (fun _ => .ok ()) =
        (100, ⟨LRUCache.empty 20000, LRUCache.empty 20000⟩, .error e) := by
  have h := C5_fetch_failure 100 (by decide)
    ⟨LRUCache.empty 20000, LRUCache.empty 20000⟩
    (lru_wf_empty 20000) (lru_wf_empty 20000)
    [c8_event] failApi (fun _ => .ok ())
    ⟨[[]], [none], [J.str "D1"], [], []⟩
    [J.str "D1"] [J.str "D1"] (LRUCache.empty 20000) [] (LRUCache.empty 20000)
    rfl rfl rfl rfl (Or.inl ⟨.runtimeError, rfl⟩)
  exact h.1

/-! ## C10: shape of `hydrated_metadata` -/

theorem dictFind_mem {K V : Type} [DecidableEq K] (l : List (K × V)) (k : K) (v : V)
    (h : dictFind l k = some v) : (k, v) ∈ l := by
  induction l with
  | nil => simp [dictFind] at h
  | cons kv rest ih =>
    obtain ⟨k', v'⟩ := kv
    by_cases hk : k' = k
    · subst hk
      have hv : dictFind ((k', v') :: rest) k' = some v' := by
        simp [dictFind]
      rw [hv, Option.some.injEq] at h
      subst h
      exact List.mem_cons_self _ _
    · simp only [dictFind, if_neg hk] at h
      exact List.mem_cons_of_mem _ (ih h)

theorem dictInsert_mem_keys {K V : Type} [DecidableEq K] (d : List (K × V))
    (k : K) (v : V) (k' : K) :
    k' ∈ (dictInsert d k v).map Prod.fst ↔ (k' ∈ d.map Prod.fst ∨ k' = k) := by
  unfold dictInsert
  rcases h : dictFind d k with _ | w
  · simp only [List.map_append, List.map_cons, List.map_nil, List.mem_append,
      List.mem_singleton]
  · have hkeys : (d.map (fun kv => if kv.1 = k then (k, v) else kv)).map Prod.fst =
        d.map Prod.fst := by
      rw [List.map_map]
      apply List.map_congr_left
      intro kv _
      by_cases hkk : kv.1 = k
      · simp [Function.comp, hkk]
      · simp [Function.comp, hkk]
    rw [hkeys]
    have hmem : k ∈ d.map Prod.fst := by
      rw [← dictFind_isSome_iff, h]; rfl
    constructor
    · exact Or.inl
    · rintro (hh | hh)
      · exact hh
      · subst hh; exact hmem

theorem dictInsert_entries {K V : Type} [DecidableEq K] (d : List (K × V))
    (k : K) (v : V) :
    ∀ kv ∈ dictInsert d k v, kv = (k, v) ∨ kv ∈ d := by
  intro kv hkv
  unfold dictInsert at hkv
  rcases h : dictFind d k with _ | w <;> rw [h] at hkv
  · rcases List.mem_append.mp hkv with hh | hh
    · exact Or.inr hh
    · exact Or.inl (List.mem_singleton.mp hh)
  · obtain ⟨kv₀, hkv₀, hf⟩ := List.mem_map.mp hkv
    by_cases hkk : kv₀.1 = k
    · rw [if_pos hkk] at hf
      exact Or.inl hf.symm
    · rw [if_neg hkk] at hf
      exact Or.inr (hf ▸ hkv₀)

theorem dictFind_map_self (l : List J) (g : J → J) (d : J) :
    dictFind (l.map (fun k => (k, g k))) d =
      if d ∈ l then some (g d) else none := by
  induction l with
  | nil => simp [dictFind]
  | cons x rest ih =>
    simp only [List.map_cons, dictFind, List.mem_cons]
    by_cases hx : x = d
    · subst hx
      simp
    · rw [if_neg hx, ih]
      by_cases hd : d ∈ rest
      · rw [if_pos hd, if_pos (Or.inr hd)]
      · have hno : ¬(d = x ∨ d ∈ rest) := by
          rintro (hh | hh)
          · exact hx hh.symm
          · exact hd hh
        rw [if_neg hd, if_neg hno]

/-- The `mention_dict` fold: its keys are exactly the scanned mention
DIDs, and every stored value is `did_to_profile.get(d)`. -/
theorem mention_fold_spec (dp : List (J × J)) :
    ∀ (m : List J) (d0 : List (J × J)),
    (∀ kv ∈ d0, kv.2 = (dictFind dp kv.1).getD J.null) →
    (∀ kv ∈ m.foldl (fun d mm => dictInsert d mm ((dictFind dp mm).getD .null)) d0,
      kv.2 = (dictFind dp kv.1).getD J.null) ∧
    (∀ k, k ∈ (m.foldl (fun d mm =>
        dictInsert d mm ((dictFind dp mm).getD .null)) d0).map Prod.fst ↔
      (k ∈ d0.map Prod.fst ∨ k ∈ m)) := by
  intro m
  induction m with
  | nil =>
    intro d0 h0
    exact ⟨h0, fun k => by simp⟩
  | cons x rest ih =>
    intro d0 h0
    have h1 : ∀ kv ∈ dictInsert d0 x ((dictFind dp x).getD .null),
        kv.2 = (dictFind dp kv.1).getD J.null := by
      intro kv hkv
      rcases dictInsert_entries d0 x _ kv hkv with hh | hh
      · rw [hh]
      · exact h0 kv hh
    obtain ⟨ihv, ihk⟩ := ih (dictInsert d0 x ((dictFind dp x).getD .null)) h1
    simp only [List.foldl_cons]
    refine ⟨ihv, ?_⟩
    intro k
    rw [ihk k, dictInsert_mem_keys]
    simp only [List.mem_cons]
    constructor
    · rintro ((hh | hh) | hh)
      · exact Or.inl hh
      · exact Or.inr (Or.inl hh)
      · exact Or.inr (Or.inr hh)
    · rintro (hh | hh | hh)
      · exact Or.inl (Or.inl hh)
      · exact Or.inl (Or.inr hh)
      · exact Or.inr hh

/-- Folding `set` (any entries) preserves well-formedness and capacity
when the capacity is at least 1. -/
theorem lru_fold_set_wf (items : List (J × J)) :
    ∀ c : LRUCache, c.WF → 1 ≤ c.max_size →
    (items.foldl (fun a kv => a.set kv.1 kv.2) c).WF ∧
    (items.foldl (fun a kv => a.set kv.1 kv.2) c).max_size = c.max_size := by
  induction items with
  | nil => intro c hwf hcap; exact ⟨hwf, rfl⟩
  | cons kv rest ih =>
    intro c hwf hcap
    have h1 := lru_wf_set c hwf hcap kv.1 kv.2
    have h2 := lru_set_max c kv.1 kv.2
    obtain ⟨ihw, ihm⟩ := ih (c.set kv.1 kv.2) h1 (h2 ▸ hcap)
    exact ⟨ihw, ihm.trans h2⟩

/-- A successful `assembleOne` always carries a `hydrated_metadata` dict
with exactly the five slots in order, whose `mentions` dict maps exactly
the record's mention DIDs to `did_to_profile` entries. -/
theorem assembleOne_metadata (dp up : List (J × J)) (rec : J) (m : List J)
    (e : Option J) (o : J) (h : assembleOne dp up rec m e = .ok o) :
    ∃ meta mdict,
      dictFind (fieldsOf o) (.str "hydrated_metadata") = some (.obj meta) ∧
      meta.map Prod.fst = [.str "user", .str "mentions", .str "parent_post",
        .str "reply_post", .str "quote_post"] ∧
      dictFind meta (.str "mentions") = some (.obj mdict) ∧
      (∀ d, d ∈ mdict.map Prod.fst ↔ d ∈ m) ∧
      (∀ d v, dictFind mdict d = some v → v = (dictFind dp d).getD J.null) := by
  unfold assembleOne at h
  obtain ⟨commit, -, h⟩ := bind_ok_elim h
  obtain ⟨crec, -, h⟩ := bind_ok_elim h
  obtain ⟨did, -, h⟩ := bind_ok_elim h
  obtain ⟨coll, -, h⟩ := bind_ok_elim h
  obtain ⟨rk, -, h⟩ := bind_ok_elim h
  obtain ⟨tu, -, h⟩ := bind_ok_elim h
  obtain ⟨rp, -, h⟩ := bind_ok_elim h
  obtain ⟨pn, -, h⟩ := bind_ok_elim h
  obtain ⟨pu, -, h⟩ := bind_ok_elim h
  obtain ⟨rn, -, h⟩ := bind_ok_elim h
  obtain ⟨ru, -, h⟩ := bind_ok_elim h
  simp only [pure, Except.pure, Except.ok.injEq] at h
  obtain ⟨hval, hkeys⟩ := mention_fold_spec dp m [] (by simp)
  subst h
  refine ⟨_, _, rfl, rfl, rfl, ?_, ?_⟩
  · intro d
    rw [hkeys d]
    simp
  · intro d v hfind
    exact hval (d, v) (dictFind_mem _ _ _ hfind)

/-- C10: in every enriched record the `hydrated_metadata` dict has
exactly the five keys `user`, `mentions`, `parent_post`, `reply_post`,
`quote_post`, in that order (an unresolved slot holds `null` but the key
is always present); its `mentions` dict has exactly the mention DIDs
phase 1 extracted for that record as keys, each mapped to the
`did_to_profile` entry for that DID — which is the final user cache's
value for every key in the batch's DID reference set and `None`
otherwise. -/
theorem C10_metadata_shape (st : Caches) (records : List J) (api : ApiOracle)
    (out : List J)
    (hcapu : 1 ≤ st.user.max_size)
    (hwfu : st.user.WF)
    (acc : RefAcc) (ad md : List J) (u1 : LRUCache) (mu : List J) (p1 : LRUCache)
    (fu : List (J × Profile)) (fp : List (J × PostView))
    (dp : List (J × J)) (u3 : LRUCache) (up : List (J × J)) (p3 : LRUCache)
    (hacc : collectRefs records = .ok acc)
    (had : setUnion acc.all_dids acc.mention_dids_global = .ok ad)
    (hpm1 : probeMissing st.user ad = (md, u1))
    (hpm2 : probeMissing st.post acc.all_uris = (mu, p1))
    (hfu : (if md.isEmpty then .ok [] else get_user_data_for_dids api md) = .ok fu)
    (hfp : (if mu.isEmpty then .ok [] else hydrate_records_for_uris api mu) = .ok fp)
    (hrb1 : readback (publishFetched ⟨u1, p1⟩ fu fp).user ad = (dp, u3))
    (hrb2 : readback (publishFetched ⟨u1, p1⟩ fu fp).post acc.all_uris = (up, p3))
    (hassemble : assemble dp up records acc.record_mentions_map
      acc.record_embed_map = .ok out)
    (i : Nat) (hi : i < out.length) (hj : i < records.length) :
    ∃ meta mdict,
      dictFind (fieldsOf (out.get ⟨i, hi⟩)) (.str "hydrated_metadata") =
        some (.obj meta) ∧
      meta.map Prod.fst = [.str "user", .str "mentions", .str "parent_post",
        .str "reply_post", .str "quote_post"] ∧
      dictFind meta (.str "mentions") = some (.obj mdict) ∧
      (∀ d, d ∈ mdict.map Prod.fst ↔
        d ∈ acc.record_mentions_map.get
          ⟨i, by rw [(collectRefs_lengths records acc hacc).1]; exact hj⟩) ∧
      (∀ d v, dictFind mdict d = some v → v = (dictFind dp d).getD J.null) ∧
      (∀ k, dictFind dp k =
        if k ∈ ad then some ((dictFind u3.cache k).getD J.null) else none) := by
  have hmslen : acc.record_mentions_map.length = records.length :=
    (collectRefs_lengths records acc hacc).1
  obtain ⟨hlen, hidx⟩ := assemble_spec dp up records _ _ _ hassemble
  have hone := hidx i hi hj
  have hm : (acc.record_mentions_map.drop i).headD [] =
      acc.record_mentions_map.get ⟨i, by rw [hmslen]; exact hj⟩ := by
    rw [List.headD_eq_head?_getD, List.head?_drop,
      List.getElem?_eq_getElem
        (show i < acc.record_mentions_map.length by rw [hmslen]; exact hj)]
    simp [List.get_eq_getElem]
  rw [hm] at hone
  obtain ⟨meta, mdict, h1, h2, h3, h4, h5⟩ := assembleOne_metadata dp up _ _ _ _ hone
  refine ⟨meta, mdict, h1, h2, h3, h4, h5, ?_⟩
  -- the did_to_profile table
  obtain ⟨-, hfind1, hw1, hx1, -⟩ := probeMissing_spec ad st.user hwfu
  rw [hpm1] at hfind1 hw1 hx1
  simp only at hfind1 hw1 hx1
  obtain ⟨hwfP, hmaxP⟩ := lru_fold_set_wf
    (fu.map (fun kv => (kv.2.did, kv.2.dump))) u1 hw1 (by rw [hx1]; exact hcapu)
  have hfold : (publishFetched ⟨u1, p1⟩ fu fp).user =
      (fu.map (fun kv => (kv.2.did, kv.2.dump))).foldl
        (fun a kv => a.set kv.1 kv.2) u1 := by
    unfold publishFetched
    rw [List.foldl_map]
  rw [← hfold] at hwfP
  obtain ⟨-, -, hfindR, hlist⟩ :=
    readback_spec ad (publishFetched ⟨u1, p1⟩ fu fp).user hwfP
  rw [hrb1] at hfindR hlist
  simp only at hfindR hlist
  intro k
  rw [hlist, dictFind_map_self]
  by_cases hk : k ∈ ad
  · rw [if_pos hk, if_pos hk, hfindR k]
  · rw [if_neg hk, if_neg hk]

/-- Witness for C10 at the concrete `c8_event` run (no mentions). -/
theorem C10_metadata_shape_witness :
    ∃ meta mdict,
      dictFind (fieldsOf c8_out) (.str "hydrated_metadata") = some (.obj meta) ∧
      meta.map Prod.fst = [.str "user", .str "mentions", .str "parent_post",
        .str "reply_post", .str "quote_post"] ∧
      dictFind meta (.str "mentions") = some (.obj mdict) ∧
      (∀ d, d ∈ mdict.map Prod.fst ↔ d ∈ ([] : List J)) ∧
      (∀ d v, dictFind mdict d = some v →
        v = (dictFind [(J.str "D1", J.obj [(J.str "did", J.str "D1")])] d).getD J.null) ∧
      (∀ k, dictFind [(J.str "D1", J.obj [(J.str "did", J.str "D1")])] k =
        if k ∈ [J.str "D1"] then
          some ((dictFind (⟨20000, [(J.str "D1", J.obj [(J.str "did", J.str "D1")])]⟩ :
            LRUCache).cache k).getD J.null)
        else none) := by
  have h := C10_metadata_shape ⟨LRUCache.empty 20000, LRUCache.empty 20000⟩
    [c8_event] echoApi [c8_out] (by decide) (lru_wf_empty 20000)
    ⟨[[]], [none], [J.str "D1"], [], []⟩
    [J.str "D1"] [J.str "D1"] (LRUCache.empty 20000) [] (LRUCache.empty 20000)
    [(J.str "D1", ⟨J.str "D1", J.obj [(J.str "did", J.str "D1")]⟩)] []
    [(J.str "D1", J.obj [(J.str "did", J.str "D1")])]
    ⟨20000, [(J.str "D1", J.obj [(J.str "did", J.str "D1")])]⟩
    [] (LRUCache.empty 20000)
    rfl rfl rfl rfl rfl rfl rfl rfl rfl
    0 (by decide) (by decide)
  simpa using h

end JetstreamTurbo
